import Mathlib

/-
Shallow embedding of `src/dag_longest_path/dag_longest_path.py`.

The Python class `DAGLongestPath` owns five mutable dictionaries/sets over
node labels, plus the two "global best" registers:

  self.nodes              {label: weight}           — node weight store
  self.edges              {label: set of labels}    — forward adjacency
  self.rev_edges          {label: set of labels}    — reverse adjacency
  self.unseen_sources     set of labels             — the frontier
  self.longest_in_weight  {label: weight}           — best-path table (weights)
  self.longest_in_route   {label: [labels]}         — best-path table (routes)
  self.longest_route / self.longest_route_weight    — global best

Modelling decisions:
  * Labels are ℕ (the Python labels are opaque hashable scalars), weights ℤ
    (Python numbers; negativity must be expressible because `add_node`
    rejects it).
  * In the source the key sets of `nodes`, `edges` and `rev_edges` coincide
    at all times: only `add_node` ever inserts a key, and it inserts into
    all three dictionaries at once.  We therefore model the three
    dictionaries as total functions together with a single shared key set
    `keys`; the functions are meaningful on `keys` and hold the default
    value elsewhere.  `longest_in_weight`/`longest_in_route` are partial
    (`Option`-valued) functions because the source reads them with
    `.get(k, default)` and absence of a key is observable.
  * Three properties that hold for every state the Python object can ever
    be in (each dictionary value of `edges` is a set of registered labels,
    since `add_edge` checks both endpoints; and the frontier only ever
    holds registered labels) are carried as proof fields of the structure.
    They are needed to show that the `while` loop of `longest_path`
    performs only finitely many iterations.
  * `set.pop()` removes an arbitrary element; iteration order over Python
    sets is unspecified.  The popping order is modelled by an explicit
    `Picker` argument (any function choosing a member of a nonempty
    finset).  The `for target in ...` loops inside one iteration perform
    independent updates at distinct keys, so they are modelled pointwise.
  * The `while` loop of `longest_path` is modelled by fuel-indexed
    iteration `loop_go`, run with fuel `measure_phi s` (frontier size plus
    total forward-edge count).  `measure_phi` strictly decreases at every
    iteration (theorem `measure_phi_step_lt`), so the fuel provably
    dominates the number of iterations and the fuelled loop stops exactly
    when the `while` condition `len(self.unseen_sources) > 0` fails
    (theorems `loop_go_stable`, `run_unseen_empty`): the model computes the
    same final state and return value as the unbounded Python loop.
    `loop_go` additionally returns the list of popped nodes (a ghost trace,
    discarded by the Python code) so that "every node is finalized exactly
    once" is statable.
-/

/-- The three distinct `ValueError`s the source can raise:
`"weight cannot be negative"` from `add_node`, and
`"source {source} not a node"` / `"target {target} not a node"` from
`add_edge` (each naming the offending endpoint and label). -/
inductive GraphError where
  | invalidWeight : GraphError
  | unknownSource : ℕ → GraphError
  | unknownTarget : ℕ → GraphError
  deriving DecidableEq, Repr

/-- State of a `DAGLongestPath` object (see the header comment for the
correspondence with the Python instance attributes).  `keys` is the common
key set of the `nodes`, `edges` and `rev_edges` dictionaries.  The three
proof fields record properties every reachable Python state has; they are
used only for termination of the traversal loop. -/
structure DAGLongestPath where
  keys : Finset ℕ
  nodes : ℕ → ℤ
  edges : ℕ → Finset ℕ
  rev_edges : ℕ → Finset ℕ
  unseen_sources : Finset ℕ
  longest_in_weight : ℕ → Option ℤ
  longest_in_route : ℕ → Option (List ℕ)
  longest_route : Option (List ℕ)
  longest_route_weight : Option ℤ
  edges_sub : ∀ n, edges n ⊆ keys
  edges_dom : ∀ n, n ∉ keys → edges n = ∅
  unseen_sub : unseen_sources ⊆ keys

namespace DAGLongestPath

/-- `__init__`: the empty graph. -/
def empty : DAGLongestPath where
  keys := ∅
  nodes := fun _ => 0
  edges := fun _ => ∅
  rev_edges := fun _ => ∅
  unseen_sources := ∅
  longest_in_weight := fun _ => none
  longest_in_route := fun _ => none
  longest_route := none
  longest_route_weight := none
  edges_sub := fun _ => Finset.empty_subset _
  edges_dom := fun _ _ => rfl
  unseen_sub := Finset.empty_subset _

/-- `add_node(label, weight)`: rejects a negative weight before any
mutation; otherwise sets `nodes[label] = weight`, resets
`edges[label]`/`rev_edges[label]` to empty sets and adds the label to
`unseen_sources`.  The returned pair is (state of `self` after the call,
raised error if any). -/
def add_node (s : DAGLongestPath) (label : ℕ) (weight : ℤ) :
    DAGLongestPath × Option GraphError :=
  if weight < 0 then (s, some .invalidWeight)
  else
    ({ s with
        keys := insert label s.keys
        nodes := Function.update s.nodes label weight
        edges := Function.update s.edges label ∅
        rev_edges := Function.update s.rev_edges label ∅
        unseen_sources := insert label s.unseen_sources
        edges_sub := by
          intro n
          rcases eq_or_ne n label with h | h
          · subst h; simp [Function.update_same]
          · rw [Function.update_noteq h]
            exact (s.edges_sub n).trans (Finset.subset_insert _ _)
        edges_dom := by
          intro n hn
          have hne : n ≠ label := fun h => hn (h ▸ Finset.mem_insert_self _ _)
          rw [Function.update_noteq hne]
          exact s.edges_dom n (fun h => hn (Finset.mem_insert_of_mem h))
        unseen_sub := by
          intro n hn
          rcases Finset.mem_insert.mp hn with h | h
          · exact h ▸ Finset.mem_insert_self _ _
          · exact Finset.mem_insert_of_mem (s.unseen_sub h) }, none)

/-- `add_edge(source, target)`: checks `source in self.nodes`, then
`target in self.nodes` (so if both are missing the error names the
source), then inserts `target` into `edges[source]`, `source` into
`rev_edges[target]`, and discards `target` from the frontier. -/
def add_edge (s : DAGLongestPath) (source target : ℕ) :
    DAGLongestPath × Option GraphError :=
  if hs : source ∉ s.keys then (s, some (.unknownSource source))
  else if ht : target ∉ s.keys then (s, some (.unknownTarget target))
  else
    ({ s with
        edges := Function.update s.edges source (insert target (s.edges source))
        rev_edges := Function.update s.rev_edges target (insert source (s.rev_edges target))
        unseen_sources := s.unseen_sources.erase target
        edges_sub := by
          intro n
          rcases eq_or_ne n source with h | h
          · subst h
            rw [Function.update_same]
            intro x hx
            rcases Finset.mem_insert.mp hx with h | h
            · exact h ▸ not_not.mp ht
            · exact s.edges_sub _ h
          · rw [Function.update_noteq h]; exact s.edges_sub n
        edges_dom := by
          intro n hn
          have hne : n ≠ source := fun h => hn (h ▸ not_not.mp hs)
          rw [Function.update_noteq hne]
          exact s.edges_dom n hn
        unseen_sub := fun n hn => s.unseen_sub (Finset.mem_of_mem_erase hn) }, none)

/-- `__del_edges_from(source)`: reads the current target set, empties
`edges[source]`, and for each target discards `source` from its reverse
set, pushing the target onto the frontier when the reverse set becomes
empty.  The per-target updates touch pairwise distinct keys, so the
unordered `for` loop is modelled pointwise. -/
def del_edges_from (s : DAGLongestPath) (source : ℕ) : DAGLongestPath :=
  { s with
    edges := Function.update s.edges source ∅
    rev_edges := fun n =>
      if n ∈ s.edges source then (s.rev_edges n).erase source else s.rev_edges n
    unseen_sources := s.unseen_sources ∪
      (s.edges source).filter (fun target => (s.rev_edges target).erase source = ∅)
    edges_sub := by
      intro n
      rcases eq_or_ne n source with h | h
      · subst h; simp [Function.update_same]
      · rw [Function.update_noteq h]; exact s.edges_sub n
    edges_dom := by
      intro n hn
      rcases eq_or_ne n source with h | h
      · subst h; simp [Function.update_same]
      · rw [Function.update_noteq h]; exact s.edges_dom n hn
    unseen_sub := by
      intro n hn
      rcases Finset.mem_union.mp hn with h | h
      · exact s.unseen_sub h
      · exact s.edges_sub source (Finset.mem_of_mem_filter _ h) }

/-- `new_weight = self.longest_in_weight.get(sourcenode, 0) + self.nodes[sourcenode]`
(line 92 of the source). -/
def new_weight (s : DAGLongestPath) (v : ℕ) : ℤ :=
  (s.longest_in_weight v).getD 0 + s.nodes v

/-- `new_route = self.longest_in_route.get(sourcenode, []) + [sourcenode]`
(line 93 of the source). -/
def new_route (s : DAGLongestPath) (v : ℕ) : List ℕ :=
  (s.longest_in_route v).getD [] ++ [v]

/-- `sourcenode = self.unseen_sources.pop()`: removal of the popped node. -/
def pop_node (s : DAGLongestPath) (v : ℕ) : DAGLongestPath :=
  { s with
    unseen_sources := s.unseen_sources.erase v
    unseen_sub := fun _ hn => s.unseen_sub (Finset.mem_of_mem_erase hn) }

/-- Lines 96-98: replace the global best iff there is none yet or the
strictly larger weight wins.  In the source the comparison
`self.longest_route_weight < new_weight` is evaluated only when
`self.longest_route is not None`; in every reachable state the two best
registers are `None` together (they are only ever assigned together), in
which case `Option.getD 0` reads exactly the stored weight. -/
def update_best (s : DAGLongestPath) (nr : List ℕ) (nw : ℤ) : DAGLongestPath :=
  if s.longest_route = none ∨ s.longest_route_weight.getD 0 < nw then
    { s with longest_route := some nr, longest_route_weight := some nw }
  else s

/-- Lines 102-106: relax every target of the popped node.  The loop
updates pairwise distinct keys of the two tables and reads only the
entry of the target being updated, so it is modelled pointwise. -/
def relax (s : DAGLongestPath) (targets : Finset ℕ) (nr : List ℕ) (nw : ℤ) :
    DAGLongestPath :=
  { s with
    longest_in_weight := fun n =>
      if n ∈ targets ∧ (s.longest_in_weight n).getD 0 < nw then some nw
      else s.longest_in_weight n
    longest_in_route := fun n =>
      if n ∈ targets ∧ (s.longest_in_weight n).getD 0 < nw then some nr
      else s.longest_in_route n }

/-- One iteration of the `while` loop of `longest_path` (lines 90-108),
for popped node `v`: pop, compute `new_weight`/`new_route`, then either
update the global best (no outgoing edges) or relax all targets and
delete the outgoing edges.  `new_weight`/`new_route` are computed from
`s` rather than `pop_node s v` — the pop only changes `unseen_sources`,
which they do not read. -/
def step_node (s : DAGLongestPath) (v : ℕ) : DAGLongestPath :=
  if s.edges v = ∅ then
    update_best (pop_node s v) (s.new_route v) (s.new_weight v)
  else
    del_edges_from (relax (pop_node s v) (s.edges v) (s.new_route v) (s.new_weight v)) v

end DAGLongestPath

/-- A policy resolving the nondeterminism of `set.pop()`: any function
choosing a member of a nonempty finset. -/
structure Picker where
  pick : (fs : Finset ℕ) → fs.Nonempty → ℕ
  pick_mem : ∀ fs h, pick fs h ∈ fs

/-- The picker that pops the smallest label. -/
def min_picker : Picker where
  pick := fun fs h => fs.min' h
  pick_mem := fun fs h => fs.min'_mem h

/-- The picker that pops the largest label. -/
def max_picker : Picker where
  pick := fun fs h => fs.max' h
  pick_mem := fun fs h => fs.max'_mem h

namespace DAGLongestPath

/-- Fuel-indexed form of the `while len(self.unseen_sources) > 0` loop.
Also returns the ghost trace of popped nodes. -/
def loop_go (pk : Picker) : ℕ → DAGLongestPath → DAGLongestPath × List ℕ
  | 0, s => (s, [])
  | fuel + 1, s =>
    if h : s.unseen_sources.Nonempty then
      let v := pk.pick s.unseen_sources h
      let r := loop_go pk fuel (s.step_node v)
      (r.1, v :: r.2)
    else (s, [])

/-- Termination measure for the traversal loop: frontier size plus total
forward-edge count.  It strictly decreases at each iteration, so it
bounds the number of iterations the Python `while` loop performs. -/
def measure_phi (s : DAGLongestPath) : ℕ :=
  s.unseen_sources.card + ∑ n ∈ s.keys, (s.edges n).card

/-- `longest_path()` run to completion: final state plus trace of popped
nodes. -/
def longest_path_run (pk : Picker) (s : DAGLongestPath) : DAGLongestPath × List ℕ :=
  loop_go pk (measure_phi s) s

/-- `longest_path()`: the state of `self` after the call, and the returned
pair `(self.longest_route, self.longest_route_weight)`. -/
def longest_path (pk : Picker) (s : DAGLongestPath) :
    DAGLongestPath × (Option (List ℕ) × Option ℤ) :=
  ((s.longest_path_run pk).1,
    ((s.longest_path_run pk).1.longest_route, (s.longest_path_run pk).1.longest_route_weight))

/-- A directed path of the graph: a nonempty list of registered labels in
which every consecutive pair is connected by a forward edge. -/
def IsPath (s : DAGLongestPath) (p : List ℕ) : Prop :=
  p ≠ [] ∧ (∀ n ∈ p, n ∈ s.keys) ∧ List.Chain' (fun a b => b ∈ s.edges a) p

instance (s : DAGLongestPath) (p : List ℕ) : Decidable (s.IsPath p) := by
  unfold IsPath; infer_instance

/-- The weight of a path: the sum of the node weights along it. -/
def path_weight (s : DAGLongestPath) (p : List ℕ) : ℤ :=
  (p.map s.nodes).sum

/-- The graph has no directed cycle: no path of length at least two
returns to its starting label. -/
def Acyclic (s : DAGLongestPath) : Prop :=
  ∀ p, s.IsPath p → 2 ≤ p.length → p.head? ≠ p.getLast?

/-- The forward and the reverse adjacency view represent the same edge
set. -/
def Sync (s : DAGLongestPath) : Prop :=
  ∀ a b, b ∈ s.edges a ↔ a ∈ s.rev_edges b

end DAGLongestPath

/-- A graph-construction call: `add_node(label, weight)` or
`add_edge(source, target)`. -/
inductive GraphOp where
  | node : ℕ → ℤ → GraphOp
  | edge : ℕ → ℕ → GraphOp
  deriving DecidableEq, Repr

/-- Apply one construction call, keeping the state of `self` whether or
not the call raises (a raising call leaves `self` untouched). -/
def applyGraphOp (s : DAGLongestPath) : GraphOp → DAGLongestPath
  | .node l w => (s.add_node l w).1
  | .edge a b => (s.add_edge a b).1

/-- The state after a sequence of construction calls on a fresh object. -/
def buildGraph (ops : List GraphOp) : DAGLongestPath :=
  ops.foldl applyGraphOp DAGLongestPath.empty

/-- The labels passed to the `add_node` calls of a construction sequence. -/
def nodeLabels : List GraphOp → List ℕ
  | [] => []
  | .node l _ :: rest => l :: nodeLabels rest
  | .edge _ _ :: rest => nodeLabels rest

namespace DAGLongestPath

theorem path_weight_append (s : DAGLongestPath) (p q : List ℕ) :
    s.path_weight (p ++ q) = s.path_weight p + s.path_weight q := by
  simp [path_weight]

theorem path_weight_singleton (s : DAGLongestPath) (v : ℕ) :
    s.path_weight [v] = s.nodes v := by
  simp [path_weight]

theorem path_singleton {s : DAGLongestPath} {n : ℕ} (hn : n ∈ s.keys) : s.IsPath [n] :=
  ⟨by simp, by simpa using hn, List.chain'_singleton _⟩

/-- Appending a successor of the last node extends a path. -/
theorem path_snoc {s : DAGLongestPath} {r : List ℕ} {m v : ℕ} (hr : s.IsPath r)
    (hlast : r.getLast? = some m) (hedge : v ∈ s.edges m) : s.IsPath (r ++ [v]) := by
  refine ⟨by simp, ?_, ?_⟩
  · intro n hn
    rcases List.mem_append.mp hn with h | h
    · exact hr.2.1 n h
    · have hv : n = v := by simpa using h
      exact hv ▸ s.edges_sub m hedge
  · rw [List.chain'_append]
    refine ⟨hr.2.2, List.chain'_singleton _, ?_⟩
    intro x hx y hy
    rw [hlast] at hx
    have hx' : m = x := by simpa using hx
    have hy' : v = y := by simpa using hy
    rw [← hx', ← hy']
    exact hedge

/-- A nonempty path either is a single node or ends in an edge into its
last node. -/
theorem path_last_cases {s : DAGLongestPath} {q : List ℕ} {v : ℕ} (hq : s.IsPath q)
    (hlast : q.getLast? = some v) :
    q = [v] ∨ ∃ q2 m, q = q2 ++ [v] ∧ s.IsPath q2 ∧ q2.getLast? = some m ∧ v ∈ s.edges m := by
  have hne := hq.1
  have hdecomp : q.dropLast ++ [v] = q :=
    List.dropLast_append_getLast? v (by rw [Option.mem_def, hlast])
  rcases eq_or_ne q.dropLast [] with h0 | h0
  · left
    rw [← hdecomp, h0]
    rfl
  · right
    refine ⟨q.dropLast, q.dropLast.getLast h0, hdecomp.symm, ?_, List.getLast?_eq_getLast _ h0, ?_⟩
    · refine ⟨h0, ?_, ?_⟩
      · intro n hn
        exact hq.2.1 n (List.mem_of_mem_dropLast hn)
      · have hch := hq.2.2
        rw [← hdecomp, List.chain'_append] at hch
        exact hch.1
    · have hch := hq.2.2
      rw [← hdecomp, List.chain'_append] at hch
      have := hch.2.2 (q.dropLast.getLast h0) (by rw [List.getLast?_eq_getLast _ h0]; exact rfl)
        v (by exact rfl)
      exact this

/-- Any list that is not `Nodup` splits around a repeated element. -/
theorem not_nodup_decomp {α : Type} : ∀ (l : List α), ¬ l.Nodup →
    ∃ (a : α) (l1 l2 l3 : List α), l = l1 ++ a :: l2 ++ a :: l3 := by
  intro l
  induction l with
  | nil => intro h; exact absurd List.nodup_nil h
  | cons x xs ih =>
    intro h
    by_cases hx : x ∈ xs
    · obtain ⟨l2, l3, rfl⟩ := List.append_of_mem hx
      exact ⟨x, [], l2, l3, rfl⟩
    · have hxs : ¬ xs.Nodup := fun hnd => h (List.nodup_cons.mpr ⟨hx, hnd⟩)
      obtain ⟨a, l1, l2, l3, rfl⟩ := ih hxs
      exact ⟨a, x :: l1, l2, l3, rfl⟩

/-- In an acyclic graph every path visits pairwise distinct nodes. -/
theorem path_nodup {s : DAGLongestPath} (hA : s.Acyclic) {p : List ℕ}
    (hp : s.IsPath p) : p.Nodup := by
  by_contra hnd
  obtain ⟨a, l1, l2, l3, rfl⟩ := not_nodup_decomp _ hnd
  obtain ⟨hne, hmem, hch⟩ := hp
  have hsplit : l1 ++ a :: l2 ++ a :: l3 = l1 ++ ((a :: l2 ++ [a]) ++ l3) := by
    simp
  rw [hsplit, List.chain'_append] at hch
  have hcyc : List.Chain' (fun a b => b ∈ s.edges a) (a :: l2 ++ [a]) :=
    (List.chain'_append.mp hch.2.1).1
  have hpath : s.IsPath (a :: l2 ++ [a]) := by
    refine ⟨by simp, ?_, hcyc⟩
    intro n hn
    apply hmem
    simp only [List.cons_append, List.mem_cons, List.mem_append] at hn ⊢
    tauto
  have hlen : 2 ≤ (a :: l2 ++ [a]).length := by
    simp
  have := hA _ hpath hlen
  apply this
  have h1 : (a :: l2 ++ [a]).head? = some a := by simp
  have h2 : (a :: l2 ++ [a]).getLast? = some a := by
    rw [show a :: l2 ++ [a] = (a :: l2) ++ [a] by simp]
    exact List.getLast?_concat _
  rw [h1, h2]

theorem path_length_le {s : DAGLongestPath} (hA : s.Acyclic) {p : List ℕ}
    (hp : s.IsPath p) : p.length ≤ s.keys.card := by
  have hnd := path_nodup hA hp
  calc p.length = p.toFinset.card := (List.toFinset_card_of_nodup hnd).symm
  _ ≤ s.keys.card :=
      Finset.card_le_card (fun x hx => hp.2.1 x (List.mem_toFinset.mp hx))

/-- A strictly increasing numbering along the edges witnesses acyclicity
(the usual topological-order criterion; stated with the quantifier over
`s.keys` so that it is decidable on concrete graphs). -/
theorem acyclic_topo (s : DAGLongestPath) (f : ℕ → ℕ)
    (hf : ∀ a ∈ s.keys, ∀ b ∈ s.edges a, f a < f b) : s.Acyclic := by
  have hf' : ∀ a b, b ∈ s.edges a → f a < f b := by
    intro a b hb
    by_cases ha : a ∈ s.keys
    · exact hf a ha b hb
    · rw [s.edges_dom a ha] at hb
      exact absurd hb (Finset.not_mem_empty b)
  have key : ∀ p : List ℕ, List.Chain' (fun a b => b ∈ s.edges a) p →
      ∀ a b, p.head? = some a → p.getLast? = some b → 2 ≤ p.length → f a < f b := by
    intro p
    induction p with
    | nil => intro _ a b ha; simp at ha
    | cons x rest ih =>
      intro hch a b ha hb hlen
      have hxa : x = a := by simpa using ha
      subst hxa
      cases rest with
      | nil => simp at hlen
      | cons y ys =>
        have hxy : y ∈ s.edges x := (List.chain'_cons.mp hch).1
        have hch' : List.Chain' (fun a b => b ∈ s.edges a) (y :: ys) :=
          (List.chain'_cons.mp hch).2
        cases ys with
        | nil =>
          have hyb : y = b := by simpa using hb
          subst hyb
          exact hf' _ _ hxy
        | cons z zs =>
          have hb' : (y :: z :: zs).getLast? = some b := by
            rw [← hb]
            simp [List.getLast?_cons_cons]
          exact (hf' _ _ hxy).trans (ih hch' y b rfl hb' (by simp))
  intro p hp hlen heq
  have hne := hp.1
  have hhead : p.head? = some (p.head hne) := List.head?_eq_head hne
  obtain ⟨b, hb⟩ : ∃ b, p.getLast? = some b := ⟨p.getLast hne, List.getLast?_eq_getLast _ hne⟩
  have hab : p.head hne = b := by
    rw [hhead, hb] at heq
    simpa using heq
  have hlt := key p hp.2.2 (p.head hne) b hhead hb hlen
  rw [hab] at hlt
  exact lt_irrefl _ hlt

/-- In an acyclic graph every nonempty set of nodes contains a node with
no predecessor inside the set. -/
theorem exists_min_node {s : DAGLongestPath} (hA : s.Acyclic) (U : Finset ℕ)
    (hU : U ⊆ s.keys) (hne : U.Nonempty) : ∃ m ∈ U, ∀ a ∈ U, m ∉ s.edges a := by
  by_contra hcon
  push_neg at hcon
  have key : ∀ k : ℕ, ∃ p, s.IsPath p ∧ (∀ n ∈ p, n ∈ U) ∧ p.length = k + 1 := by
    intro k
    induction k with
    | zero =>
      obtain ⟨x, hx⟩ := hne
      exact ⟨[x], path_singleton (hU hx), by simpa using hx, rfl⟩
    | succ k ih =>
      obtain ⟨p, hp, hpU, hlen⟩ := ih
      have hpne : p ≠ [] := hp.1
      have hh : p.head hpne ∈ U := hpU _ (List.head_mem hpne)
      obtain ⟨a, haU, hedge⟩ := hcon _ hh
      refine ⟨a :: p, ⟨by simp, ?_, ?_⟩, ?_, by simp [hlen]⟩
      · intro n hn
        rcases List.mem_cons.mp hn with h | h
        · exact h ▸ hU haU
        · exact hp.2.1 n h
      · rw [List.chain'_cons']
        refine ⟨?_, hp.2.2⟩
        intro y hy
        rw [List.head?_eq_head hpne] at hy
        have hyh : p.head hpne = y := by simpa using hy
        exact hyh ▸ hedge
      · intro n hn
        rcases List.mem_cons.mp hn with h | h
        · exact h ▸ haU
        · exact hpU n h
  obtain ⟨p, hp, hpU, hlen⟩ := key U.card
  have h1 : p.length ≤ U.card := by
    have hnd := path_nodup hA hp
    calc p.length = p.toFinset.card := (List.toFinset_card_of_nodup hnd).symm
    _ ≤ U.card := Finset.card_le_card (fun x hx => hpU x (List.mem_toFinset.mp hx))
  omega

/-- In a finite acyclic graph with nonnegative weights every path extends
to a path of at least its weight that ends in a node with no outgoing
edges. -/
theorem path_extend_terminal {s : DAGLongestPath} (hA : s.Acyclic)
    (hnn : ∀ n ∈ s.keys, 0 ≤ s.nodes n) {q : List ℕ} (hq : s.IsPath q) :
    ∃ r m, s.IsPath r ∧ r.getLast? = some m ∧ s.edges m = ∅ ∧
      s.path_weight q ≤ s.path_weight r := by
  have aux : ∀ k q, s.IsPath q → s.keys.card ≤ q.length + k →
      ∃ r m, s.IsPath r ∧ r.getLast? = some m ∧ s.edges m = ∅ ∧
        s.path_weight q ≤ s.path_weight r := by
    intro k
    induction k with
    | zero =>
      intro q hq hcard
      have hle := path_length_le hA hq
      have hne := hq.1
      by_cases hm : s.edges (q.getLast hne) = ∅
      · exact ⟨q, q.getLast hne, hq, List.getLast?_eq_getLast _ hne, hm, le_refl _⟩
      · exfalso
        obtain ⟨b, hb⟩ := Finset.nonempty_iff_ne_empty.mpr hm
        have htf : q.toFinset = s.keys := by
          apply Finset.eq_of_subset_of_card_le
            (fun x hx => hq.2.1 x (List.mem_toFinset.mp hx))
          rw [List.toFinset_card_of_nodup (path_nodup hA hq)]
          omega
        have hbq : b ∈ q := List.mem_toFinset.mp (htf ▸ s.edges_sub _ hb)
        have hpath : s.IsPath (q ++ [b]) :=
          path_snoc hq (List.getLast?_eq_getLast _ hne) hb
        have hnd := path_nodup hA hpath
        rw [List.nodup_append] at hnd
        exact hnd.2.2 hbq (by simp)
    | succ k ih =>
      intro q hq hcard
      have hne := hq.1
      by_cases hm : s.edges (q.getLast hne) = ∅
      · exact ⟨q, q.getLast hne, hq, List.getLast?_eq_getLast _ hne, hm, le_refl _⟩
      · obtain ⟨b, hb⟩ := Finset.nonempty_iff_ne_empty.mpr hm
        have hpath : s.IsPath (q ++ [b]) :=
          path_snoc hq (List.getLast?_eq_getLast _ hne) hb
        obtain ⟨r, m, h1, h2, h3, h4⟩ := ih (q ++ [b]) hpath (by simp; omega)
        refine ⟨r, m, h1, h2, h3, le_trans ?_ h4⟩
        rw [path_weight_append, path_weight_singleton]
        have hbk : b ∈ s.keys := s.edges_sub _ hb
        have := hnn b hbk
        omega
  exact aux s.keys.card q hq (by omega)

end DAGLongestPath

namespace DAGLongestPath

theorem pop_node_keys (s : DAGLongestPath) (v : ℕ) : (s.pop_node v).keys = s.keys := rfl

theorem pop_node_nodes (s : DAGLongestPath) (v : ℕ) : (s.pop_node v).nodes = s.nodes := rfl

theorem pop_node_edges (s : DAGLongestPath) (v : ℕ) : (s.pop_node v).edges = s.edges := rfl

theorem pop_node_rev (s : DAGLongestPath) (v : ℕ) : (s.pop_node v).rev_edges = s.rev_edges := rfl

theorem pop_node_unseen (s : DAGLongestPath) (v : ℕ) :
    (s.pop_node v).unseen_sources = s.unseen_sources.erase v := rfl

theorem update_best_keys (s : DAGLongestPath) (nr : List ℕ) (nw : ℤ) :
    (update_best s nr nw).keys = s.keys := by
  unfold update_best; split <;> rfl

theorem update_best_nodes (s : DAGLongestPath) (nr : List ℕ) (nw : ℤ) :
    (update_best s nr nw).nodes = s.nodes := by
  unfold update_best; split <;> rfl

theorem update_best_edges (s : DAGLongestPath) (nr : List ℕ) (nw : ℤ) :
    (update_best s nr nw).edges = s.edges := by
  unfold update_best; split <;> rfl

theorem update_best_rev (s : DAGLongestPath) (nr : List ℕ) (nw : ℤ) :
    (update_best s nr nw).rev_edges = s.rev_edges := by
  unfold update_best; split <;> rfl

theorem update_best_unseen (s : DAGLongestPath) (nr : List ℕ) (nw : ℤ) :
    (update_best s nr nw).unseen_sources = s.unseen_sources := by
  unfold update_best; split <;> rfl

theorem update_best_liw (s : DAGLongestPath) (nr : List ℕ) (nw : ℤ) :
    (update_best s nr nw).longest_in_weight = s.longest_in_weight := by
  unfold update_best; split <;> rfl

theorem update_best_lir (s : DAGLongestPath) (nr : List ℕ) (nw : ℤ) :
    (update_best s nr nw).longest_in_route = s.longest_in_route := by
  unfold update_best; split <;> rfl

theorem update_best_pos {s : DAGLongestPath} {nr : List ℕ} {nw : ℤ}
    (h : s.longest_route = none ∨ s.longest_route_weight.getD 0 < nw) :
    (update_best s nr nw).longest_route = some nr ∧
      (update_best s nr nw).longest_route_weight = some nw := by
  unfold update_best; rw [if_pos h]; exact ⟨rfl, rfl⟩

theorem update_best_neg {s : DAGLongestPath} {nr : List ℕ} {nw : ℤ}
    (h : ¬ (s.longest_route = none ∨ s.longest_route_weight.getD 0 < nw)) :
    (update_best s nr nw).longest_route = s.longest_route ∧
      (update_best s nr nw).longest_route_weight = s.longest_route_weight := by
  unfold update_best; rw [if_neg h]; exact ⟨rfl, rfl⟩

theorem relax_keys (s : DAGLongestPath) (ts : Finset ℕ) (nr : List ℕ) (nw : ℤ) :
    (relax s ts nr nw).keys = s.keys := rfl

theorem relax_nodes (s : DAGLongestPath) (ts : Finset ℕ) (nr : List ℕ) (nw : ℤ) :
    (relax s ts nr nw).nodes = s.nodes := rfl

theorem relax_edges (s : DAGLongestPath) (ts : Finset ℕ) (nr : List ℕ) (nw : ℤ) :
    (relax s ts nr nw).edges = s.edges := rfl

theorem relax_rev (s : DAGLongestPath) (ts : Finset ℕ) (nr : List ℕ) (nw : ℤ) :
    (relax s ts nr nw).rev_edges = s.rev_edges := rfl

theorem relax_unseen (s : DAGLongestPath) (ts : Finset ℕ) (nr : List ℕ) (nw : ℤ) :
    (relax s ts nr nw).unseen_sources = s.unseen_sources := rfl

theorem relax_best (s : DAGLongestPath) (ts : Finset ℕ) (nr : List ℕ) (nw : ℤ) :
    (relax s ts nr nw).longest_route = s.longest_route ∧
      (relax s ts nr nw).longest_route_weight = s.longest_route_weight :=
  ⟨rfl, rfl⟩

theorem relax_liw (s : DAGLongestPath) (ts : Finset ℕ) (nr : List ℕ) (nw : ℤ) (n : ℕ) :
    (relax s ts nr nw).longest_in_weight n =
      if n ∈ ts ∧ (s.longest_in_weight n).getD 0 < nw then some nw
      else s.longest_in_weight n := rfl

theorem relax_lir (s : DAGLongestPath) (ts : Finset ℕ) (nr : List ℕ) (nw : ℤ) (n : ℕ) :
    (relax s ts nr nw).longest_in_route n =
      if n ∈ ts ∧ (s.longest_in_weight n).getD 0 < nw then some nr
      else s.longest_in_route n := rfl

theorem del_edges_from_keys (s : DAGLongestPath) (v : ℕ) :
    (s.del_edges_from v).keys = s.keys := rfl

theorem del_edges_from_nodes (s : DAGLongestPath) (v : ℕ) :
    (s.del_edges_from v).nodes = s.nodes := rfl

theorem del_edges_from_edges (s : DAGLongestPath) (v : ℕ) :
    (s.del_edges_from v).edges = Function.update s.edges v ∅ := rfl

theorem del_edges_from_rev (s : DAGLongestPath) (v : ℕ) (n : ℕ) :
    (s.del_edges_from v).rev_edges n =
      if n ∈ s.edges v then (s.rev_edges n).erase v else s.rev_edges n := rfl

theorem del_edges_from_unseen (s : DAGLongestPath) (v : ℕ) :
    (s.del_edges_from v).unseen_sources = s.unseen_sources ∪
      (s.edges v).filter (fun target => (s.rev_edges target).erase v = ∅) := rfl

theorem del_edges_from_liw (s : DAGLongestPath) (v : ℕ) :
    (s.del_edges_from v).longest_in_weight = s.longest_in_weight := rfl

theorem del_edges_from_lir (s : DAGLongestPath) (v : ℕ) :
    (s.del_edges_from v).longest_in_route = s.longest_in_route := rfl

theorem del_edges_from_best (s : DAGLongestPath) (v : ℕ) :
    (s.del_edges_from v).longest_route = s.longest_route ∧
      (s.del_edges_from v).longest_route_weight = s.longest_route_weight :=
  ⟨rfl, rfl⟩

theorem step_node_terminal {s : DAGLongestPath} {v : ℕ} (h : s.edges v = ∅) :
    s.step_node v = update_best (s.pop_node v) (s.new_route v) (s.new_weight v) := by
  unfold step_node; rw [if_pos h]

theorem step_node_nonterminal {s : DAGLongestPath} {v : ℕ} (h : s.edges v ≠ ∅) :
    s.step_node v =
      del_edges_from (relax (s.pop_node v) (s.edges v) (s.new_route v) (s.new_weight v)) v := by
  unfold step_node; rw [if_neg h]

theorem step_node_keys (s : DAGLongestPath) (v : ℕ) : (s.step_node v).keys = s.keys := by
  by_cases h : s.edges v = ∅
  · rw [step_node_terminal h, update_best_keys, pop_node_keys]
  · rw [step_node_nonterminal h, del_edges_from_keys, relax_keys, pop_node_keys]

theorem step_node_nodes (s : DAGLongestPath) (v : ℕ) : (s.step_node v).nodes = s.nodes := by
  by_cases h : s.edges v = ∅
  · rw [step_node_terminal h, update_best_nodes, pop_node_nodes]
  · rw [step_node_nonterminal h, del_edges_from_nodes, relax_nodes, pop_node_nodes]

/-- The termination measure strictly decreases at each iteration of the
traversal loop. -/
theorem measure_phi_step_lt {s : DAGLongestPath} {v : ℕ} (hv : v ∈ s.unseen_sources) :
    measure_phi (s.step_node v) < measure_phi s := by
  have hvK : v ∈ s.keys := s.unseen_sub hv
  have hpos : 1 ≤ s.unseen_sources.card := Finset.card_pos.mpr ⟨v, hv⟩
  have herase : (s.unseen_sources.erase v).card = s.unseen_sources.card - 1 :=
    Finset.card_erase_of_mem hv
  by_cases h : s.edges v = ∅
  · unfold measure_phi
    rw [step_node_terminal h, update_best_unseen, update_best_edges, update_best_keys,
      pop_node_unseen, pop_node_edges, pop_node_keys, herase]
    omega
  · unfold measure_phi
    rw [step_node_nonterminal h]
    simp only [del_edges_from_unseen, del_edges_from_edges, del_edges_from_keys,
      relax_edges, relax_unseen, relax_keys, relax_rev, pop_node_edges,
      pop_node_unseen, pop_node_keys, pop_node_rev]
    have hsum : ∑ n ∈ s.keys, (Function.update s.edges v ∅ n).card =
        ∑ n ∈ s.keys.erase v, (s.edges n).card := by
      rw [← Finset.add_sum_erase _ _ hvK]
      have h0 : (Function.update s.edges v ∅ v).card = 0 := by
        rw [Function.update_same]; rfl
      rw [h0, Nat.zero_add]
      exact Finset.sum_congr rfl
        (fun x hx => by rw [Function.update_noteq (Finset.ne_of_mem_erase hx)])
    have hsplit : ∑ n ∈ s.keys, (s.edges n).card =
        (s.edges v).card + ∑ n ∈ s.keys.erase v, (s.edges n).card :=
      (Finset.add_sum_erase _ _ hvK).symm
    have hecard : 1 ≤ (s.edges v).card :=
      Finset.card_pos.mpr (Finset.nonempty_iff_ne_empty.mpr h)
    have hunion : ∀ F : Finset ℕ, F ⊆ s.edges v →
        (s.unseen_sources.erase v ∪ F).card ≤
          (s.unseen_sources.erase v).card + (s.edges v).card := by
      intro F hF
      have h1 := Finset.card_union_le (s.unseen_sources.erase v) F
      have h2 := Finset.card_le_card hF
      omega
    have hu := hunion _ (Finset.filter_subset
      (fun target => (s.rev_edges target).erase v = ∅) (s.edges v))
    rw [hsum]
    omega

theorem loop_go_unseen_empty (pk : Picker) {s : DAGLongestPath}
    (h : s.unseen_sources = ∅) (k : ℕ) : loop_go pk k s = (s, []) := by
  cases k with
  | zero => rfl
  | succ k =>
    unfold loop_go
    rw [dif_neg]
    rw [h]
    exact Finset.not_nonempty_empty

theorem loop_go_complete (pk : Picker) :
    ∀ k s, measure_phi s ≤ k → ((loop_go pk k s).1).unseen_sources = ∅ := by
  intro k
  induction k with
  | zero =>
    intro s hm
    have : s.unseen_sources.card = 0 := by
      unfold measure_phi at hm; omega
    have h := Finset.card_eq_zero.mp this
    rw [loop_go_unseen_empty pk h]
    exact h
  | succ k ih =>
    intro s hm
    by_cases h : s.unseen_sources = ∅
    · rw [loop_go_unseen_empty pk h]; exact h
    · have hne : s.unseen_sources.Nonempty := Finset.nonempty_iff_ne_empty.mpr h
      unfold loop_go
      rw [dif_pos hne]
      have hlt := measure_phi_step_lt (pk.pick_mem s.unseen_sources hne)
      exact ih _ (by omega)

theorem loop_go_stable (pk : Picker) :
    ∀ k s, measure_phi s ≤ k → ∀ k2, k ≤ k2 → loop_go pk k2 s = loop_go pk k s := by
  intro k
  induction k with
  | zero =>
    intro s hm k2 _
    have : s.unseen_sources.card = 0 := by
      unfold measure_phi at hm; omega
    have h := Finset.card_eq_zero.mp this
    rw [loop_go_unseen_empty pk h, loop_go_unseen_empty pk h]
  | succ k ih =>
    intro s hm k2 hk2
    by_cases h : s.unseen_sources = ∅
    · rw [loop_go_unseen_empty pk h, loop_go_unseen_empty pk h]
    · have hne : s.unseen_sources.Nonempty := Finset.nonempty_iff_ne_empty.mpr h
      obtain ⟨k2', rfl⟩ : ∃ m, k2 = m + 1 :=
        ⟨k2 - 1, by omega⟩
      have hlt := measure_phi_step_lt (pk.pick_mem s.unseen_sources hne)
      have hrec := ih (s.step_node (pk.pick s.unseen_sources hne)) (by omega) k2' (by omega)
      simp only [loop_go, dif_pos hne]
      rw [hrec]

/-- After `longest_path` the frontier is exhausted: the `while` condition
is false, exactly as when the Python loop exits. -/
theorem run_unseen_empty (pk : Picker) (s : DAGLongestPath) :
    ((s.longest_path_run pk).1).unseen_sources = ∅ :=
  loop_go_complete pk _ s (le_refl _)

theorem loop_go_keys_nodes (pk : Picker) :
    ∀ k s, ((loop_go pk k s).1).keys = s.keys ∧ ((loop_go pk k s).1).nodes = s.nodes := by
  intro k
  induction k with
  | zero => intro s; exact ⟨rfl, rfl⟩
  | succ k ih =>
    intro s
    by_cases h : s.unseen_sources.Nonempty
    · unfold loop_go
      rw [dif_pos h]
      refine ⟨?_, ?_⟩
      · rw [(ih _).1, step_node_keys]
      · rw [(ih _).2, step_node_nodes]
    · unfold loop_go
      rw [dif_neg h]
      exact ⟨rfl, rfl⟩

end DAGLongestPath

/-- The configuration every graph freshly built by `add_node`/`add_edge`
calls (with pairwise distinct node labels) is in when `longest_path` starts:
synchronized adjacency views, frontier = registered nodes without incoming
edges, untouched best-path table and best registers, nonnegative weights. -/
structure InitOK (s : DAGLongestPath) : Prop where
  sync : s.Sync
  rev_sub : ∀ n, s.rev_edges n ⊆ s.keys
  unseen_eq : s.unseen_sources = s.keys.filter (fun n => s.rev_edges n = ∅)
  liw_init : s.longest_in_weight = fun _ => none
  lir_init : s.longest_in_route = fun _ => none
  route_init : s.longest_route = none
  weight_init : s.longest_route_weight = none
  nonneg : ∀ n ∈ s.keys, 0 ≤ s.nodes n

namespace DAGLongestPath

theorem empty_initOK : InitOK empty := by
  refine ⟨?_, ?_, ?_, rfl, rfl, rfl, rfl, ?_⟩
  · intro a b
    constructor
    · intro h; exact absurd h (Finset.not_mem_empty _)
    · intro h; exact absurd h (Finset.not_mem_empty _)
  · intro n; exact Finset.empty_subset _
  · rfl
  · intro n hn; exact absurd hn (Finset.not_mem_empty _)

theorem add_node_keys_sub (s : DAGLongestPath) (l : ℕ) (w : ℤ) :
    ((s.add_node l w).1).keys ⊆ insert l s.keys := by
  unfold add_node
  split_ifs
  · exact Finset.subset_insert _ _
  · exact subset_refl _

theorem add_edge_keys (s : DAGLongestPath) (a b : ℕ) :
    ((s.add_edge a b).1).keys = s.keys := by
  unfold add_edge
  split_ifs <;> rfl

/-- `add_node` on a fresh label preserves the initial configuration. -/
theorem add_node_initOK {s : DAGLongestPath} (hs : InitOK s) {l : ℕ} {w : ℤ}
    (hl : l ∉ s.keys) : InitOK (s.add_node l w).1 := by
  unfold add_node
  by_cases hw : w < 0
  · rw [if_pos hw]; exact hs
  · rw [if_neg hw]
    refine ⟨?_, ?_, ?_, hs.liw_init, hs.lir_init, hs.route_init, hs.weight_init, ?_⟩
    · intro x y
      show y ∈ Function.update s.edges l ∅ x ↔ x ∈ Function.update s.rev_edges l ∅ y
      rw [Function.update_apply, Function.update_apply]
      by_cases hx : x = l <;> by_cases hy : y = l
      · simp [hx, hy]
      · simp only [hx, if_true, ite_true, hy, if_neg hy, ite_false, Finset.not_mem_empty,
          false_iff]
        exact fun h => hl (hs.rev_sub y h)
      · simp only [hx, if_neg hx, hy, if_true, ite_true, ite_false, Finset.not_mem_empty,
          iff_false]
        exact fun h => hl (s.edges_sub x h)
      · rw [if_neg hx, if_neg hy]
        exact hs.sync x y
    · intro n
      show Function.update s.rev_edges l ∅ n ⊆ insert l s.keys
      rcases eq_or_ne n l with hn | hn
      · subst hn; rw [Function.update_same]; exact Finset.empty_subset _
      · rw [Function.update_noteq hn]
        exact (hs.rev_sub n).trans (Finset.subset_insert _ _)
    · show insert l s.unseen_sources =
        (insert l s.keys).filter (fun n => Function.update s.rev_edges l ∅ n = ∅)
      ext n
      rcases eq_or_ne n l with hn | hn
      · subst hn
        simp [Function.update_same]
      · simp only [Finset.mem_insert, Finset.mem_filter, Function.update_noteq hn, hn,
          false_or]
        rw [hs.unseen_eq]
        simp [hn]
    · intro n hn
      show 0 ≤ Function.update s.nodes l w n
      rcases eq_or_ne n l with hn2 | hn2
      · subst hn2; rw [Function.update_same]; omega
      · rw [Function.update_noteq hn2]
        refine hs.nonneg n ?_
        rcases Finset.mem_insert.mp hn with h | h
        · exact absurd h hn2
        · exact h

/-- `add_edge` preserves the initial configuration. -/
theorem add_edge_initOK {s : DAGLongestPath} (hs : InitOK s) (a b : ℕ) :
    InitOK (s.add_edge a b).1 := by
  unfold add_edge
  by_cases ha : a ∉ s.keys
  · rw [dif_pos ha]; exact hs
  · rw [dif_neg ha]
    by_cases hb : b ∉ s.keys
    · rw [dif_pos hb]; exact hs
    · rw [dif_neg hb]
      have haK : a ∈ s.keys := not_not.mp ha
      have hbK : b ∈ s.keys := not_not.mp hb
      refine ⟨?_, ?_, ?_, hs.liw_init, hs.lir_init, hs.route_init, hs.weight_init,
        hs.nonneg⟩
      · intro x y
        show y ∈ Function.update s.edges a (insert b (s.edges a)) x ↔
          x ∈ Function.update s.rev_edges b (insert a (s.rev_edges b)) y
        rcases eq_or_ne x a with hx | hx
        · subst hx
          rw [Function.update_same]
          rcases eq_or_ne y b with hy | hy
          · subst hy
            rw [Function.update_same]
            simp
          · rw [Function.update_noteq hy, Finset.mem_insert]
            constructor
            · intro hmem
              rcases hmem with h2 | h2
              · exact absurd h2 hy
              · exact (hs.sync x y).mp h2
            · intro hmem
              exact Or.inr ((hs.sync x y).mpr hmem)
        · rw [Function.update_noteq hx]
          rcases eq_or_ne y b with hy | hy
          · subst hy
            rw [Function.update_same, Finset.mem_insert]
            constructor
            · intro hmem; exact Or.inr ((hs.sync x y).mp hmem)
            · intro hmem
              rcases hmem with h2 | h2
              · exact absurd h2 hx
              · exact (hs.sync x y).mpr h2
          · rw [Function.update_noteq hy]
            exact hs.sync x y
      · intro n
        show Function.update s.rev_edges b (insert a (s.rev_edges b)) n ⊆ s.keys
        rcases eq_or_ne n b with hn | hn
        · subst hn
          rw [Function.update_same]
          intro x hx
          rcases Finset.mem_insert.mp hx with h2 | h2
          · exact h2 ▸ haK
          · exact hs.rev_sub _ h2
        · rw [Function.update_noteq hn]
          exact hs.rev_sub n
      · show s.unseen_sources.erase b =
          s.keys.filter (fun n => Function.update s.rev_edges b (insert a (s.rev_edges b)) n = ∅)
        ext n
        rcases eq_or_ne n b with hn | hn
        · rw [hn]
          constructor
          · intro h
            exact absurd rfl (Finset.mem_erase.mp h).1
          · intro h
            have h2 := (Finset.mem_filter.mp h).2
            rw [Function.update_same] at h2
            exact absurd h2 (Finset.insert_ne_empty _ _)
        · simp only [Finset.mem_erase, hn, ne_eq, not_false_eq_true, true_and,
            Finset.mem_filter, Function.update_noteq hn]
          rw [hs.unseen_eq]
          simp

theorem foldl_initOK :
    ∀ (ops : List GraphOp) (s : DAGLongestPath), InitOK s → (nodeLabels ops).Nodup →
      (∀ l ∈ nodeLabels ops, l ∉ s.keys) → InitOK (ops.foldl applyGraphOp s) := by
  intro ops
  induction ops with
  | nil => intro s hs _ _; exact hs
  | cons op rest ih =>
    intro s hs hnd hfresh
    cases op with
    | node l w =>
      have hl : l ∉ s.keys := hfresh l (by simp [nodeLabels])
      have hnd' : (nodeLabels rest).Nodup := by
        have : (nodeLabels (GraphOp.node l w :: rest)) = l :: nodeLabels rest := rfl
        rw [this] at hnd
        exact (List.nodup_cons.mp hnd).2
      have hlmem : l ∉ nodeLabels rest := by
        have : (nodeLabels (GraphOp.node l w :: rest)) = l :: nodeLabels rest := rfl
        rw [this] at hnd
        exact (List.nodup_cons.mp hnd).1
      refine ih (s.add_node l w).1 (add_node_initOK hs hl) hnd' ?_
      intro x hx hxk
      have hxl : x ≠ l := fun h => hlmem (h ▸ hx)
      have := add_node_keys_sub s l w hxk
      rcases Finset.mem_insert.mp this with h2 | h2
      · exact hxl h2
      · exact hfresh x (by simp [nodeLabels, hx]) h2
    | edge a b =>
      refine ih (s.add_edge a b).1 (add_edge_initOK hs a b) hnd ?_
      intro x hx
      rw [add_edge_keys]
      exact hfresh x hx

/-- A construction sequence whose `add_node` labels are pairwise distinct
produces a graph in the initial configuration. -/
theorem build_initOK (ops : List GraphOp) (h : (nodeLabels ops).Nodup) :
    InitOK (buildGraph ops) :=
  foldl_initOK ops empty empty_initOK h
    (fun l _ hl => absurd hl (Finset.not_mem_empty l))

end DAGLongestPath

namespace DAGLongestPath

theorem sdiff_insert_of_not_mem {A D : Finset ℕ} {v : ℕ} (h : v ∉ A) :
    A \ insert v D = A \ D := by
  ext x
  simp only [Finset.mem_sdiff, Finset.mem_insert, not_or]
  constructor
  · rintro ⟨hx, _, hxD⟩; exact ⟨hx, hxD⟩
  · rintro ⟨hx, hxD⟩
    exact ⟨hx, fun hxv => h (hxv ▸ hx), hxD⟩

theorem erase_sdiff_eq (A D : Finset ℕ) (v : ℕ) : (A \ D).erase v = A \ insert v D := by
  ext x
  simp only [Finset.mem_erase, Finset.mem_sdiff, Finset.mem_insert, not_or]
  tauto

theorem acyclic_no_self_loop {s : DAGLongestPath} (hA : s.Acyclic) (v : ℕ) :
    v ∉ s.edges v := by
  intro h
  have hvK : v ∈ s.keys := s.edges_sub v h
  have hp : s.IsPath [v, v] := by
    refine ⟨by simp, ?_, ?_⟩
    · intro n hn
      have : n = v := by
        rcases List.mem_cons.mp hn with h2 | h2
        · exact h2
        · simpa using h2
      exact this ▸ hvK
    · rw [List.chain'_cons]
      exact ⟨h, List.chain'_singleton _⟩
  exact hA _ hp (by simp) (by simp)

/-- The invariant tying an intermediate state `t` of the traversal loop to
the initial state `s`, where `D` is the set of already finalized (popped)
nodes.  It says: `D` is closed under predecessors; the node store is
untouched; precisely the outgoing edges of finalized nodes have been
removed, from both adjacency views; the frontier holds exactly the
unfinalized nodes all of whose predecessors are finalized; the best-path
table of an unfinalized node holds the best weight over all paths that
reach it through an already-finalized predecessor (with its witnessing
route); and the global best registers hold the best path finalized at a
terminal node so far. -/
structure Inv (s : DAGLongestPath) (D : Finset ℕ) (t : DAGLongestPath) : Prop where
  dsub : D ⊆ s.keys
  dclosed : ∀ m ∈ D, s.rev_edges m ⊆ D
  keys_eq : t.keys = s.keys
  nodes_eq : t.nodes = s.nodes
  edges_done : ∀ n ∈ D, t.edges n = ∅
  edges_rest : ∀ n ∉ D, t.edges n = s.edges n
  rev_eq : ∀ n, t.rev_edges n = s.rev_edges n \ D
  unseen_eq : t.unseen_sources = (s.keys \ D).filter (fun n => s.rev_edges n ⊆ D)
  liw_none : ∀ n ∉ D, t.longest_in_weight n = none → t.longest_in_route n = none
  liw_some : ∀ n ∉ D, ∀ wv, t.longest_in_weight n = some wv →
    0 < wv ∧ ∃ r m, t.longest_in_route n = some r ∧ s.IsPath r ∧ r.getLast? = some m ∧
      m ∈ D ∧ n ∈ s.edges m ∧ s.path_weight r = wv
  liw_best : ∀ n ∉ D, ∀ q m, s.IsPath q → q.getLast? = some m → m ∈ D → n ∈ s.edges m →
    s.path_weight q ≤ (t.longest_in_weight n).getD 0
  best_none : t.longest_route = none →
    t.longest_route_weight = none ∧ ∀ m ∈ D, s.edges m ≠ ∅
  best_some : ∀ r, t.longest_route = some r →
    ∃ wv m, t.longest_route_weight = some wv ∧ s.IsPath r ∧ s.path_weight r = wv ∧
      r.getLast? = some m ∧ m ∈ D ∧ s.edges m = ∅
  best_ge : ∀ q m, s.IsPath q → q.getLast? = some m → m ∈ D → s.edges m = ∅ →
    ∃ wv, t.longest_route_weight = some wv ∧ s.path_weight q ≤ wv

theorem inv_init {s : DAGLongestPath} (hI : InitOK s) : Inv s ∅ s := by
  refine ⟨Finset.empty_subset _, ?_, rfl, rfl, ?_, ?_, ?_, ?_, ?_, ?_, ?_, ?_, ?_, ?_⟩
  · intro m hm; exact absurd hm (Finset.not_mem_empty m)
  · intro n hn; exact absurd hn (Finset.not_mem_empty n)
  · intro n _; rfl
  · intro n; rw [Finset.sdiff_empty]
  · rw [hI.unseen_eq, Finset.sdiff_empty]
    apply Finset.filter_congr
    intro n _
    simp [Finset.subset_empty]
  · intro n _ _
    rw [hI.lir_init]
  · intro n _ wv hwv
    rw [hI.liw_init] at hwv
    exact absurd hwv (by simp)
  · intro n _ q m _ _ hm
    exact absurd hm (Finset.not_mem_empty m)
  · intro _
    exact ⟨hI.weight_init, fun m hm => absurd hm (Finset.not_mem_empty m)⟩
  · intro r hr
    rw [hI.route_init] at hr
    exact absurd hr (by simp)
  · intro q m _ _ hm
    exact absurd hm (Finset.not_mem_empty m)

theorem inv_frontier_facts {s : DAGLongestPath} {D : Finset ℕ} {t : DAGLongestPath}
    (hInv : Inv s D t) {v : ℕ} (hv : v ∈ t.unseen_sources) :
    v ∈ s.keys ∧ v ∉ D ∧ s.rev_edges v ⊆ D := by
  rw [hInv.unseen_eq] at hv
  have h1 := Finset.mem_filter.mp hv
  have h2 := Finset.mem_sdiff.mp h1.1
  exact ⟨h2.1, h2.2, h1.2⟩

theorem inv_liw_nonneg {s : DAGLongestPath} {D : Finset ℕ} {t : DAGLongestPath}
    (hInv : Inv s D t) {n : ℕ} (hn : n ∉ D) :
    0 ≤ (t.longest_in_weight n).getD 0 := by
  cases h : t.longest_in_weight n with
  | none => simp
  | some wv =>
    have := (hInv.liw_some n hn wv h).1
    simp only [Option.getD_some]
    omega

/-- The route/weight finalized for a frontier node is an `s`-path ending
at that node, of exactly the finalized weight. -/
theorem inv_finalize {s : DAGLongestPath} {D : Finset ℕ} {t : DAGLongestPath}
    (hInv : Inv s D t) {v : ℕ} (hvK : v ∈ s.keys) (hvD : v ∉ D) :
    s.IsPath (t.new_route v) ∧ (t.new_route v).getLast? = some v ∧
      s.path_weight (t.new_route v) = t.new_weight v := by
  unfold new_route new_weight
  cases h : t.longest_in_weight v with
  | none =>
    rw [hInv.liw_none v hvD h]
    simp only [Option.getD_none, List.nil_append]
    refine ⟨path_singleton hvK, by simp, ?_⟩
    rw [path_weight_singleton, hInv.nodes_eq]
    ring
  | some wv =>
    obtain ⟨hpos, r, m, hlir, hpath, hlast, hmD, hedge, hwr⟩ := hInv.liw_some v hvD wv h
    rw [hlir]
    simp only [Option.getD_some]
    refine ⟨path_snoc hpath hlast hedge, List.getLast?_concat _, ?_⟩
    rw [path_weight_append, path_weight_singleton, hwr, hInv.nodes_eq]

/-- The finalized weight of a frontier node dominates the weight of every
`s`-path ending at that node (all its predecessors are finalized). -/
theorem inv_new_weight_best {s : DAGLongestPath} (hI : InitOK s) {D : Finset ℕ}
    {t : DAGLongestPath} (hInv : Inv s D t) {v : ℕ} (hvD : v ∉ D)
    (hrev : s.rev_edges v ⊆ D) :
    ∀ q, s.IsPath q → q.getLast? = some v → s.path_weight q ≤ t.new_weight v := by
  intro q hq hlast
  have hnn := inv_liw_nonneg hInv hvD
  rcases path_last_cases hq hlast with h | ⟨q2, m, rfl, hq2, hlast2, hedge⟩
  · subst h
    rw [path_weight_singleton]
    unfold new_weight
    rw [hInv.nodes_eq]
    omega
  · have hmD : m ∈ D := hrev ((hI.sync m v).mp hedge)
    have hbound := hInv.liw_best v hvD q2 m hq2 hlast2 hmD hedge
    rw [path_weight_append, path_weight_singleton]
    unfold new_weight
    rw [hInv.nodes_eq]
    omega

end DAGLongestPath

namespace DAGLongestPath

theorem pop_node_liw (s : DAGLongestPath) (v : ℕ) :
    (s.pop_node v).longest_in_weight = s.longest_in_weight := rfl

theorem pop_node_lir (s : DAGLongestPath) (v : ℕ) :
    (s.pop_node v).longest_in_route = s.longest_in_route := rfl

theorem pop_node_route (s : DAGLongestPath) (v : ℕ) :
    (s.pop_node v).longest_route = s.longest_route := rfl

theorem pop_node_weight (s : DAGLongestPath) (v : ℕ) :
    (s.pop_node v).longest_route_weight = s.longest_route_weight := rfl

theorem new_route_pop (s : DAGLongestPath) (v : ℕ) : (s.pop_node v).new_route v = s.new_route v := rfl

theorem new_weight_pop (s : DAGLongestPath) (v : ℕ) : (s.pop_node v).new_weight v = s.new_weight v := rfl

/-- Finalizing a frontier node with no outgoing edges preserves the loop
invariant (with the node added to the finalized set). -/
theorem inv_step_terminal {s : DAGLongestPath} (hI : InitOK s)
    {D : Finset ℕ} {t : DAGLongestPath} (hInv : Inv s D t) {v : ℕ}
    (hv : v ∈ t.unseen_sources) (hterm : t.edges v = ∅) :
    Inv s (insert v D) (t.step_node v) := by
  obtain ⟨hvK, hvD, hrev⟩ := inv_frontier_facts hInv hv
  have hterm' : s.edges v = ∅ := by rw [← hInv.edges_rest v hvD]; exact hterm
  obtain ⟨hF1path, hF1last, hF1w⟩ := inv_finalize hInv hvK hvD
  have hF2 := inv_new_weight_best hI hInv hvD hrev
  have hvrev : ∀ n, v ∉ s.rev_edges n := by
    intro n h
    have h2 := (hI.sync v n).mpr h
    rw [hterm'] at h2
    exact absurd h2 (Finset.not_mem_empty n)
  rw [step_node_terminal hterm]
  refine ⟨Finset.insert_subset_iff.mpr ⟨hvK, hInv.dsub⟩, ?_, ?_, ?_, ?_, ?_, ?_, ?_,
    ?_, ?_, ?_, ?_, ?_, ?_⟩
  · intro m hm
    rcases Finset.mem_insert.mp hm with h | h
    · subst h; exact hrev.trans (Finset.subset_insert _ _)
    · exact (hInv.dclosed m h).trans (Finset.subset_insert _ _)
  · rw [update_best_keys, pop_node_keys]; exact hInv.keys_eq
  · rw [update_best_nodes, pop_node_nodes]; exact hInv.nodes_eq
  · intro n hn
    rw [update_best_edges, pop_node_edges]
    rcases Finset.mem_insert.mp hn with h | h
    · exact h ▸ hterm
    · exact hInv.edges_done n h
  · intro n hn
    rw [Finset.mem_insert, not_or] at hn
    rw [update_best_edges, pop_node_edges]
    exact hInv.edges_rest n hn.2
  · intro n
    rw [update_best_rev, pop_node_rev, hInv.rev_eq n, sdiff_insert_of_not_mem (hvrev n)]
  · rw [update_best_unseen, pop_node_unseen]
    ext n
    rcases eq_or_ne n v with hn | hn
    · rw [hn]
      constructor
      · intro h
        exact absurd rfl (Finset.mem_erase.mp h).1
      · intro h
        have h2 := (Finset.mem_sdiff.mp (Finset.mem_filter.mp h).1).2
        exact absurd (Finset.mem_insert_self v D) h2
    · simp only [Finset.mem_erase, hn, ne_eq, not_false_eq_true, true_and]
      rw [hInv.unseen_eq]
      simp only [Finset.mem_filter, Finset.mem_sdiff, Finset.mem_insert, not_or]
      constructor
      · rintro ⟨⟨hk, hd⟩, hsub⟩
        exact ⟨⟨hk, hn, hd⟩, hsub.trans (Finset.subset_insert _ _)⟩
      · rintro ⟨⟨hk, _, hd⟩, hsub⟩
        refine ⟨⟨hk, hd⟩, ?_⟩
        intro x hx
        rcases Finset.mem_insert.mp (hsub hx) with h2 | h2
        · exact absurd (h2 ▸ hx) (hvrev n)
        · exact h2
  · intro n hn h
    rw [Finset.mem_insert, not_or] at hn
    rw [update_best_liw, pop_node_liw] at h
    rw [update_best_lir, pop_node_lir]
    exact hInv.liw_none n hn.2 h
  · intro n hn wv h
    rw [Finset.mem_insert, not_or] at hn
    rw [update_best_liw, pop_node_liw] at h
    obtain ⟨hpos, r, m, hlir, hpath, hlast, hmD, hedge, hwr⟩ := hInv.liw_some n hn.2 wv h
    refine ⟨hpos, r, m, ?_, hpath, hlast, Finset.mem_insert_of_mem hmD, hedge, hwr⟩
    rw [update_best_lir, pop_node_lir]
    exact hlir
  · intro n hn q m hq hlast hmD hedge
    rw [Finset.mem_insert, not_or] at hn
    rw [update_best_liw, pop_node_liw]
    rcases Finset.mem_insert.mp hmD with h | h
    · subst h
      rw [hterm'] at hedge
      exact absurd hedge (Finset.not_mem_empty n)
    · exact hInv.liw_best n hn.2 q m hq hlast h hedge
  · intro h
    by_cases hcond : (t.pop_node v).longest_route = none ∨
        ((t.pop_node v).longest_route_weight).getD 0 < t.new_weight v
    · rw [(update_best_pos hcond).1] at h
      exact absurd h (by simp)
    · rw [(update_best_neg hcond).1, pop_node_route] at h
      rw [(update_best_neg hcond).2, pop_node_weight]
      obtain ⟨hw, hall⟩ := hInv.best_none h
      refine ⟨hw, ?_⟩
      intro m hm
      rcases Finset.mem_insert.mp hm with h2 | h2
      · push_neg at hcond
        rw [pop_node_route] at hcond
        exact absurd h hcond.1
      · exact hall m h2
  · intro r hr
    by_cases hcond : (t.pop_node v).longest_route = none ∨
        ((t.pop_node v).longest_route_weight).getD 0 < t.new_weight v
    · rw [(update_best_pos hcond).1] at hr
      have hrnr : r = t.new_route v := by
        have := Option.some.inj hr
        exact this.symm
      subst hrnr
      refine ⟨t.new_weight v, v, (update_best_pos hcond).2, hF1path, hF1w, hF1last,
        Finset.mem_insert_self _ _, hterm'⟩
    · rw [(update_best_neg hcond).1, pop_node_route] at hr
      obtain ⟨wv, m, hw, hpath, hweq, hlast, hmD, hmterm⟩ := hInv.best_some r hr
      refine ⟨wv, m, ?_, hpath, hweq, hlast, Finset.mem_insert_of_mem hmD, hmterm⟩
      rw [(update_best_neg hcond).2, pop_node_weight]
      exact hw
  · intro q m hq hlast hmD hmterm
    by_cases hcond : (t.pop_node v).longest_route = none ∨
        ((t.pop_node v).longest_route_weight).getD 0 < t.new_weight v
    · refine ⟨t.new_weight v, (update_best_pos hcond).2, ?_⟩
      rcases Finset.mem_insert.mp hmD with h2 | h2
      · subst h2
        exact hF2 q hq hlast
      · obtain ⟨w0, hw0, hle⟩ := hInv.best_ge q m hq hlast h2 hmterm
        have hw0le : w0 ≤ t.new_weight v := by
          rcases hcond with hc | hc
          · rw [pop_node_route] at hc
            rw [(hInv.best_none hc).1] at hw0
            exact absurd hw0 (by simp)
          · rw [pop_node_weight, hw0] at hc
            simp only [Option.getD_some] at hc
            omega
        omega
    · push_neg at hcond
      rw [pop_node_route, pop_node_weight] at hcond
      obtain ⟨hrsome, hge⟩ := hcond
      obtain ⟨r0, hr0⟩ := Option.ne_none_iff_exists'.mp hrsome
      obtain ⟨w0, m0, hw0, _, _, _, hm0D, _⟩ := hInv.best_some r0 hr0
      refine ⟨w0, ?_, ?_⟩
      · rw [(update_best_neg ?_).2, pop_node_weight]
        · exact hw0
        · push_neg
          rw [pop_node_route, pop_node_weight]
          exact ⟨hrsome, hge⟩
      · rcases Finset.mem_insert.mp hmD with h2 | h2
        · subst h2
          have h3 := hF2 q hq hlast
          rw [hw0] at hge
          simp only [Option.getD_some] at hge
          omega
        · obtain ⟨w1, hw1, hle⟩ := hInv.best_ge q m hq hlast h2 hmterm
          rw [hw1] at hw0
          have := Option.some.inj hw0
          omega

end DAGLongestPath

namespace DAGLongestPath

/-- Finalizing a frontier node with outgoing edges (relaxation of all its
targets followed by deletion of its outgoing edges) preserves the loop
invariant. -/
theorem inv_step_nonterminal {s : DAGLongestPath} (hI : InitOK s) (hA : s.Acyclic)
    {D : Finset ℕ} {t : DAGLongestPath} (hInv : Inv s D t) {v : ℕ}
    (hv : v ∈ t.unseen_sources) (hterm : t.edges v ≠ ∅) :
    Inv s (insert v D) (t.step_node v) := by
  obtain ⟨hvK, hvD, hrev⟩ := inv_frontier_facts hInv hv
  have hedges : t.edges v = s.edges v := hInv.edges_rest v hvD
  have hterm' : s.edges v ≠ ∅ := by rw [← hedges]; exact hterm
  obtain ⟨hF1path, hF1last, hF1w⟩ := inv_finalize hInv hvK hvD
  have hF2 := inv_new_weight_best hI hInv hvD hrev
  have hself : v ∉ s.edges v := acyclic_no_self_loop hA v
  have hvinrev : ∀ n, v ∈ s.rev_edges n ↔ n ∈ s.edges v := fun n => (hI.sync v n).symm
  have htarget_notD : ∀ n ∈ s.edges v, n ∉ D := by
    intro n hn hnD
    exact hvD (hInv.dclosed n hnD ((hvinrev n).mpr hn))
  rw [step_node_nonterminal hterm]
  refine ⟨Finset.insert_subset_iff.mpr ⟨hvK, hInv.dsub⟩, ?_, ?_, ?_, ?_, ?_, ?_, ?_,
    ?_, ?_, ?_, ?_, ?_, ?_⟩
  · intro m hm
    rcases Finset.mem_insert.mp hm with h | h
    · subst h; exact hrev.trans (Finset.subset_insert _ _)
    · exact (hInv.dclosed m h).trans (Finset.subset_insert _ _)
  · rw [del_edges_from_keys, relax_keys, pop_node_keys]; exact hInv.keys_eq
  · rw [del_edges_from_nodes, relax_nodes, pop_node_nodes]; exact hInv.nodes_eq
  · intro n hn
    rw [del_edges_from_edges, relax_edges, pop_node_edges]
    rcases Finset.mem_insert.mp hn with h | h
    · rw [h, Function.update_same]
    · have hnv : n ≠ v := fun h2 => hvD (h2 ▸ h)
      rw [Function.update_noteq hnv]
      exact hInv.edges_done n h
  · intro n hn
    rw [Finset.mem_insert, not_or] at hn
    rw [del_edges_from_edges, relax_edges, pop_node_edges, Function.update_noteq hn.1]
    exact hInv.edges_rest n hn.2
  · intro n
    rw [del_edges_from_rev, relax_edges, pop_node_edges, relax_rev, pop_node_rev]
    by_cases hn : n ∈ t.edges v
    · rw [if_pos hn, hInv.rev_eq n, erase_sdiff_eq]
    · rw [if_neg hn, hInv.rev_eq n, sdiff_insert_of_not_mem]
      intro h
      exact hn (by rw [hedges]; exact (hvinrev n).mp h)
  · rw [del_edges_from_unseen]
    simp only [relax_edges, pop_node_edges, relax_rev, pop_node_rev, relax_unseen,
      pop_node_unseen]
    ext n
    rcases eq_or_ne n v with hn | hn
    · rw [hn]
      constructor
      · intro h
        rcases Finset.mem_union.mp h with h2 | h2
        · exact absurd rfl (Finset.mem_erase.mp h2).1
        · exact absurd (hedges ▸ (Finset.mem_filter.mp h2).1) hself
      · intro h
        exact absurd (Finset.mem_insert_self v D)
          (Finset.mem_sdiff.mp (Finset.mem_filter.mp h).1).2
    · by_cases hne : n ∈ s.edges v
      · have hnD : n ∉ D := htarget_notD n hne
        have hnK : n ∈ s.keys := s.edges_sub v hne
        have hvrevn : v ∈ s.rev_edges n := (hvinrev n).mpr hne
        constructor
        · intro h
          rcases Finset.mem_union.mp h with h2 | h2
          · have h3 := Finset.mem_of_mem_erase h2
            rw [hInv.unseen_eq] at h3
            have h4 := (Finset.mem_filter.mp h3).2
            exact absurd (h4 hvrevn) hvD
          · have h3 := (Finset.mem_filter.mp h2).2
            rw [hInv.rev_eq n, erase_sdiff_eq] at h3
            refine Finset.mem_filter.mpr ⟨Finset.mem_sdiff.mpr ⟨hnK, ?_⟩, ?_⟩
            · intro hmem
              rcases Finset.mem_insert.mp hmem with h5 | h5
              · exact hn h5
              · exact hnD h5
            · exact Finset.sdiff_eq_empty_iff_subset.mp h3
        · intro h
          have h2 := (Finset.mem_filter.mp h).2
          apply Finset.mem_union_right
          refine Finset.mem_filter.mpr ⟨by rw [hedges]; exact hne, ?_⟩
          rw [hInv.rev_eq n, erase_sdiff_eq]
          exact Finset.sdiff_eq_empty_iff_subset.mpr h2
      · have hvnotrev : v ∉ s.rev_edges n := fun h => hne ((hvinrev n).mp h)
        constructor
        · intro h
          rcases Finset.mem_union.mp h with h2 | h2
          · have h3 := Finset.mem_of_mem_erase h2
            rw [hInv.unseen_eq] at h3
            obtain ⟨h4, h5⟩ := Finset.mem_filter.mp h3
            obtain ⟨hk, hd⟩ := Finset.mem_sdiff.mp h4
            refine Finset.mem_filter.mpr ⟨Finset.mem_sdiff.mpr ⟨hk, ?_⟩,
              h5.trans (Finset.subset_insert _ _)⟩
            intro hmem
            rcases Finset.mem_insert.mp hmem with h6 | h6
            · exact hn h6
            · exact hd h6
          · exact absurd (hedges ▸ (Finset.mem_filter.mp h2).1) hne
        · intro h
          obtain ⟨h4, h5⟩ := Finset.mem_filter.mp h
          obtain ⟨hk, hd⟩ := Finset.mem_sdiff.mp h4
          apply Finset.mem_union_left
          refine Finset.mem_erase.mpr ⟨hn, ?_⟩
          rw [hInv.unseen_eq]
          refine Finset.mem_filter.mpr ⟨Finset.mem_sdiff.mpr
            ⟨hk, fun h6 => hd (Finset.mem_insert_of_mem h6)⟩, ?_⟩
          intro x hx
          rcases Finset.mem_insert.mp (h5 hx) with h6 | h6
          · exact absurd (h6 ▸ hx) hvnotrev
          · exact h6
  · intro n hn h
    rw [Finset.mem_insert, not_or] at hn
    rw [del_edges_from_liw, relax_liw, pop_node_liw] at h
    rw [del_edges_from_lir, relax_lir, pop_node_liw, pop_node_lir]
    split_ifs at h with hc
    rw [if_neg hc]
    exact hInv.liw_none n hn.2 h
  · intro n hn wv h
    rw [Finset.mem_insert, not_or] at hn
    rw [del_edges_from_liw, relax_liw, pop_node_liw] at h
    rw [del_edges_from_lir, relax_lir, pop_node_liw, pop_node_lir]
    split_ifs at h with hc
    · have hwv : t.new_weight v = wv := Option.some.inj h
      have hnn := inv_liw_nonneg hInv hn.2
      refine ⟨by omega, t.new_route v, v, ?_, hF1path, hF1last,
        Finset.mem_insert_self _ _, by rw [← hedges]; exact hc.1, by rw [hF1w, hwv]⟩
      rw [if_pos hc]
    · obtain ⟨hpos, r, m, hlir, hpath, hlast, hmD, hedge, hwr⟩ := hInv.liw_some n hn.2 wv h
      refine ⟨hpos, r, m, ?_, hpath, hlast, Finset.mem_insert_of_mem hmD, hedge, hwr⟩
      rw [if_neg hc]
      exact hlir
  · intro n hn q m hq hlast hmD hedge2
    rw [Finset.mem_insert, not_or] at hn
    rw [del_edges_from_liw, relax_liw, pop_node_liw]
    by_cases hc : n ∈ t.edges v ∧ (t.longest_in_weight n).getD 0 < t.new_weight v
    · rw [if_pos hc]
      simp only [Option.getD_some]
      rcases Finset.mem_insert.mp hmD with h2 | h2
      · rw [h2] at hlast
        exact hF2 q hq hlast
      · have hold := hInv.liw_best n hn.2 q m hq hlast h2 hedge2
        omega
    · rw [if_neg hc]
      rcases Finset.mem_insert.mp hmD with h2 | h2
      · rw [h2] at hlast hedge2
        have h1 : n ∈ t.edges v := by rw [hedges]; exact hedge2
        have h4 : ¬ ((t.longest_in_weight n).getD 0 < t.new_weight v) :=
          fun hlt => hc ⟨h1, hlt⟩
        have h3 := hF2 q hq hlast
        omega
      · exact hInv.liw_best n hn.2 q m hq hlast h2 hedge2
  · intro h
    rw [(del_edges_from_best _ _).1, (relax_best _ _ _ _).1, pop_node_route] at h
    obtain ⟨hw, hall⟩ := hInv.best_none h
    refine ⟨?_, ?_⟩
    · rw [(del_edges_from_best _ _).2, (relax_best _ _ _ _).2, pop_node_weight]
      exact hw
    · intro m hm
      rcases Finset.mem_insert.mp hm with h2 | h2
      · exact h2 ▸ hterm'
      · exact hall m h2
  · intro r hr
    rw [(del_edges_from_best _ _).1, (relax_best _ _ _ _).1, pop_node_route] at hr
    obtain ⟨wv, m, hw, hpath, hweq, hlast, hmD, hmterm⟩ := hInv.best_some r hr
    refine ⟨wv, m, ?_, hpath, hweq, hlast, Finset.mem_insert_of_mem hmD, hmterm⟩
    rw [(del_edges_from_best _ _).2, (relax_best _ _ _ _).2, pop_node_weight]
    exact hw
  · intro q m hq hlast hmD hmterm
    rcases Finset.mem_insert.mp hmD with h2 | h2
    · subst h2
      exact absurd hmterm hterm'
    · obtain ⟨wv, hw, hle⟩ := hInv.best_ge q m hq hlast h2 hmterm
      refine ⟨wv, ?_, hle⟩
      rw [(del_edges_from_best _ _).2, (relax_best _ _ _ _).2, pop_node_weight]
      exact hw

/-- One loop iteration preserves the invariant. -/
theorem inv_step {s : DAGLongestPath} (hI : InitOK s) (hA : s.Acyclic)
    {D : Finset ℕ} {t : DAGLongestPath} (hInv : Inv s D t) {v : ℕ}
    (hv : v ∈ t.unseen_sources) : Inv s (insert v D) (t.step_node v) := by
  by_cases h : t.edges v = ∅
  · exact inv_step_terminal hI hInv hv h
  · exact inv_step_nonterminal hI hA hInv hv h

end DAGLongestPath

namespace DAGLongestPath

theorem mem_of_getLastSome {l : List ℕ} {a : ℕ} (h : l.getLast? = some a) : a ∈ l := by
  obtain ⟨hne2, heq⟩ := List.mem_getLast?_eq_getLast
    (show a ∈ l.getLast? by rw [Option.mem_def, h])
  rw [heq]
  exact List.getLast_mem hne2

/-- Given the invariant and enough fuel, the loop runs the frontier dry,
pops pairwise distinct nodes, and ends in a state satisfying the
invariant for a larger finalized set. -/
theorem loop_go_inv (pk : Picker) {s : DAGLongestPath} (hI : InitOK s) (hA : s.Acyclic) :
    ∀ k (t : DAGLongestPath) (D : Finset ℕ), Inv s D t → measure_phi t ≤ k →
      ∃ D2, D ⊆ D2 ∧ Inv s D2 (loop_go pk k t).1 ∧
        ((loop_go pk k t).1).unseen_sources = ∅ ∧
        (loop_go pk k t).2.Nodup ∧ (loop_go pk k t).2.toFinset = D2 \ D := by
  intro k
  induction k with
  | zero =>
    intro t D hInv hm
    have hcard : t.unseen_sources.card = 0 := by unfold measure_phi at hm; omega
    have hue := Finset.card_eq_zero.mp hcard
    rw [loop_go_unseen_empty pk hue]
    exact ⟨D, subset_refl _, hInv, hue, List.nodup_nil, by simp⟩
  | succ k ih =>
    intro t D hInv hm
    by_cases hne : t.unseen_sources.Nonempty
    · have hv := pk.pick_mem t.unseen_sources hne
      have hInv2 := inv_step hI hA hInv hv
      have hlt := measure_phi_step_lt hv
      obtain ⟨D2, hsub, hInv3, hue, hnd, htf⟩ :=
        ih (t.step_node (pk.pick t.unseen_sources hne))
          (insert (pk.pick t.unseen_sources hne) D) hInv2 (by omega)
      obtain ⟨hvK, hvD, _⟩ := inv_frontier_facts hInv hv
      have hvD2 : pk.pick t.unseen_sources hne ∈ D2 := hsub (Finset.mem_insert_self _ _)
      simp only [loop_go, dif_pos hne]
      refine ⟨D2, (Finset.subset_insert _ _).trans hsub, hInv3, hue, ?_, ?_⟩
      · rw [List.nodup_cons]
        refine ⟨?_, hnd⟩
        intro hmem
        have h2 : pk.pick t.unseen_sources hne ∈
            (loop_go pk k (t.step_node (pk.pick t.unseen_sources hne))).2.toFinset :=
          List.mem_toFinset.mpr hmem
        rw [htf] at h2
        exact (Finset.mem_sdiff.mp h2).2 (Finset.mem_insert_self _ _)
      · rw [List.toFinset_cons, htf]
        ext x
        simp only [Finset.mem_insert, Finset.mem_sdiff, Finset.mem_insert, not_or]
        constructor
        · rintro (rfl | ⟨hx1, _, hx3⟩)
          · exact ⟨hvD2, hvD⟩
          · exact ⟨hx1, hx3⟩
        · rintro ⟨hx1, hx2⟩
          by_cases hxv : x = pk.pick t.unseen_sources hne
          · exact Or.inl hxv
          · exact Or.inr ⟨hx1, hxv, hx2⟩
    · rw [Finset.not_nonempty_iff_eq_empty] at hne
      rw [loop_go_unseen_empty pk hne]
      exact ⟨D, subset_refl _, hInv, hne, List.nodup_nil, by simp⟩

/-- When the frontier is exhausted and the graph is acyclic, every node has
been finalized. -/
theorem done_all {s : DAGLongestPath} (hI : InitOK s) (hA : s.Acyclic)
    {D : Finset ℕ} {t : DAGLongestPath} (hInv : Inv s D t)
    (hue : t.unseen_sources = ∅) : D = s.keys := by
  by_contra hne
  have hU : (s.keys \ D).Nonempty := by
    rw [Finset.sdiff_nonempty]
    intro hsub
    exact hne (Finset.Subset.antisymm hInv.dsub hsub)
  obtain ⟨m, hmU, hmin⟩ := exists_min_node hA (s.keys \ D) (Finset.sdiff_subset) hU
  obtain ⟨hmK, hmD⟩ := Finset.mem_sdiff.mp hmU
  have hrevD : s.rev_edges m ⊆ D := by
    intro a ha
    have haE : m ∈ s.edges a := (hI.sync a m).mpr ha
    have haK : a ∈ s.keys := hI.rev_sub m ha
    by_contra haD
    exact hmin a (Finset.mem_sdiff.mpr ⟨haK, haD⟩) haE
  have : m ∈ t.unseen_sources := by
    rw [hInv.unseen_eq]
    exact Finset.mem_filter.mpr ⟨hmU, hrevD⟩
  rw [hue] at this
  exact absurd this (Finset.not_mem_empty m)

/-- At the end of `longest_path` the invariant holds with every node
finalized, and the popped trace enumerates every node exactly once. -/
theorem run_inv (pk : Picker) {s : DAGLongestPath} (hI : InitOK s) (hA : s.Acyclic) :
    Inv s s.keys ((s.longest_path_run pk).1) ∧
      ((s.longest_path_run pk).2).Nodup ∧
      ((s.longest_path_run pk).2).toFinset = s.keys := by
  obtain ⟨D2, _, hInv2, hue, hnd, htf⟩ :=
    loop_go_inv pk hI hA (measure_phi s) s ∅ (inv_init hI) (le_refl _)
  have hD2 : D2 = s.keys := done_all hI hA hInv2 hue
  rw [hD2] at hInv2 htf
  refine ⟨hInv2, hnd, ?_⟩
  show (loop_go pk (measure_phi s) s).2.toFinset = s.keys
  rw [htf, Finset.sdiff_empty]

/-- On a nonempty acyclic graph, `longest_path` returns a route that is a
path of the original graph whose weight is the returned weight, and that
weight is maximal among all paths. -/
theorem run_best_optimal (pk : Picker) {s : DAGLongestPath} (hI : InitOK s)
    (hA : s.Acyclic) (hne : s.keys.Nonempty) :
    ∃ r wv, (s.longest_path pk).2.1 = some r ∧ (s.longest_path pk).2.2 = some wv ∧
      s.IsPath r ∧ s.path_weight r = wv ∧
      ∀ q, s.IsPath q → s.path_weight q ≤ wv := by
  have hInv := (run_inv pk hI hA).1
  obtain ⟨x, hx⟩ := hne
  obtain ⟨r0, m0, hr0, hlast0, hterm0, _⟩ :=
    path_extend_terminal hA hI.nonneg (path_singleton hx)
  have hm0K : m0 ∈ s.keys := hr0.2.1 m0 (mem_of_getLastSome hlast0)
  obtain ⟨wv0, hwv0, _⟩ := hInv.best_ge r0 m0 hr0 hlast0 hm0K hterm0
  cases hroute : ((s.longest_path_run pk).1).longest_route with
  | none =>
    rw [(hInv.best_none hroute).1] at hwv0
    exact absurd hwv0 (by simp)
  | some r =>
    obtain ⟨wv2, m, hw2, hpath, hweq, _, _, _⟩ := hInv.best_some r hroute
    refine ⟨r, wv2, hroute, hw2, hpath, hweq, ?_⟩
    intro q hq
    obtain ⟨q2, m2, hq2, hlast2, hterm2, hle⟩ := path_extend_terminal hA hI.nonneg hq
    have hm2K : m2 ∈ s.keys := hq2.2.1 m2 (mem_of_getLastSome hlast2)
    obtain ⟨wv3, hwv3, hle3⟩ := hInv.best_ge q2 m2 hq2 hlast2 hm2K hterm2
    rw [hw2] at hwv3
    have := Option.some.inj hwv3
    omega

/-- On the empty graph `longest_path` returns `(None, None)`. -/
theorem run_keys_empty (pk : Picker) {s : DAGLongestPath} (hI : InitOK s)
    (hke : s.keys = ∅) : (s.longest_path pk).2 = (none, none) := by
  have hue : s.unseen_sources = ∅ := by
    rw [hI.unseen_eq, hke]
    rfl
  show ((s.longest_path_run pk).1.longest_route, (s.longest_path_run pk).1.longest_route_weight)
    = (none, none)
  show ((loop_go pk (measure_phi s) s).1.longest_route,
    (loop_go pk (measure_phi s) s).1.longest_route_weight) = (none, none)
  rw [loop_go_unseen_empty pk hue]
  rw [hI.route_init, hI.weight_init]

end DAGLongestPath

namespace DAGLongestPath

/-- `add_edge` keeps the two adjacency views synchronized (also when it
raises, since then it does not mutate). -/
theorem add_edge_sync {s : DAGLongestPath} (hs : s.Sync) (a b : ℕ) :
    Sync (s.add_edge a b).1 := by
  unfold add_edge
  by_cases ha : a ∉ s.keys
  · rw [dif_pos ha]; exact hs
  · rw [dif_neg ha]
    by_cases hb : b ∉ s.keys
    · rw [dif_pos hb]; exact hs
    · rw [dif_neg hb]
      intro x y
      show y ∈ Function.update s.edges a (insert b (s.edges a)) x ↔
        x ∈ Function.update s.rev_edges b (insert a (s.rev_edges b)) y
      rcases eq_or_ne x a with hx | hx
      · subst hx
        rw [Function.update_same]
        rcases eq_or_ne y b with hy | hy
        · subst hy
          rw [Function.update_same]
          simp
        · rw [Function.update_noteq hy, Finset.mem_insert]
          constructor
          · intro hmem
            rcases hmem with h2 | h2
            · exact absurd h2 hy
            · exact (hs x y).mp h2
          · intro hmem
            exact Or.inr ((hs x y).mpr hmem)
      · rw [Function.update_noteq hx]
        rcases eq_or_ne y b with hy | hy
        · subst hy
          rw [Function.update_same, Finset.mem_insert]
          constructor
          · intro hmem; exact Or.inr ((hs x y).mp hmem)
          · intro hmem
            rcases hmem with h2 | h2
            · exact absurd h2 hx
            · exact (hs x y).mpr h2
        · rw [Function.update_noteq hy]
          exact hs x y

/-- `add_node` keeps the adjacency views synchronized provided the label
has no incident edges (in particular any fresh label); re-adding a label
with incident edges breaks the invariant. -/
theorem add_node_sync {s : DAGLongestPath} (hs : s.Sync) (l : ℕ) (w : ℤ)
    (hout : s.edges l = ∅) (hin : ∀ x, l ∉ s.edges x) : Sync (s.add_node l w).1 := by
  unfold add_node
  by_cases hw : w < 0
  · rw [if_pos hw]; exact hs
  · rw [if_neg hw]
    intro x y
    show y ∈ Function.update s.edges l ∅ x ↔ x ∈ Function.update s.rev_edges l ∅ y
    rw [Function.update_apply, Function.update_apply]
    by_cases hx : x = l <;> by_cases hy : y = l
    · simp [hx, hy]
    · simp only [hx, ite_true, if_neg hy, Finset.not_mem_empty, false_iff]
      intro h
      exact absurd ((hs l y).mpr h) (by rw [hout]; exact Finset.not_mem_empty y)
    · simp only [if_neg hx, hy, ite_true, Finset.not_mem_empty, iff_false]
      exact fun h => hin x (hy ▸ h)
    · rw [if_neg hx, if_neg hy]
      exact hs x y

/-- Calling `longest_path` on a state whose frontier is already empty
performs no iteration: it returns the stored best registers unchanged. -/
theorem longest_path_second_call (pk : Picker) {t : DAGLongestPath}
    (hue : t.unseen_sources = ∅) :
    (t.longest_path pk).2 = (t.longest_route, t.longest_route_weight) := by
  show ((loop_go pk (measure_phi t) t).1.longest_route,
    (loop_go pk (measure_phi t) t).1.longest_route_weight) =
    (t.longest_route, t.longest_route_weight)
  rw [loop_go_unseen_empty pk hue]

end DAGLongestPath

open DAGLongestPath

/-- The construction sequence of the `__main__` block of the source:
nodes 0..5 with weight equal to the label, edges 3→5, 2→5, 2→4, 1→2. -/
def exampleOps : List GraphOp :=
  [.node 0 0, .node 1 1, .node 2 2, .node 3 3, .node 4 4, .node 5 5,
   .edge 3 5, .edge 2 5, .edge 2 4, .edge 1 2]

/-- The graph built by the `__main__` block of the source. -/
def exampleGraph : DAGLongestPath := buildGraph exampleOps

/-- C1: for every finite acyclic graph built by `add_node`/`add_edge` calls
(formally: any state in the initial configuration `InitOK`, which by
`build_initOK` every construction sequence with fresh node labels
produces) with at least one node, the `total_weight` returned by
`longest_path()` equals the maximum, over all directed paths in the graph
(including single-node paths), of the sum of the node weights along the
path — whatever the popping order. -/
theorem claim1_weight_is_maximum (pk : Picker) (s : DAGLongestPath) (hI : InitOK s)
    (hA : s.Acyclic) (hne : s.keys.Nonempty) :
    ∃ p, s.IsPath p ∧ (s.longest_path pk).2.2 = some (s.path_weight p) ∧
      ∀ q, s.IsPath q → s.path_weight q ≤ s.path_weight p := by
  obtain ⟨r, wv, _, hw, hpath, hweq, hopt⟩ := run_best_optimal pk hI hA hne
  refine ⟨r, hpath, by rw [hw, hweq], ?_⟩
  intro q hq
  rw [hweq]
  exact hopt q hq

/-- Witness for C1 at the graph of the source's `__main__` block. -/
theorem claim1_witness :
    ∃ p, exampleGraph.IsPath p ∧
      (exampleGraph.longest_path min_picker).2.2 = some (exampleGraph.path_weight p) ∧
      ∀ q, exampleGraph.IsPath q → exampleGraph.path_weight q ≤ exampleGraph.path_weight p :=
  claim1_weight_is_maximum min_picker exampleGraph (build_initOK _ (by decide))
    (acyclic_topo _ id (by decide)) (by decide)

/-- C2: for every finite acyclic graph (in the initial configuration), if
the route returned by `longest_path()` is non-`None`, then it is a path of
the graph as it existed before the call — nonempty, every label
registered, and every pair of consecutive labels joined by an edge — and
the sum of the node weights along it equals the returned `total_weight`. -/
theorem claim2_route_is_valid_path (pk : Picker) (s : DAGLongestPath) (hI : InitOK s)
    (hA : s.Acyclic) (r : List ℕ) (hr : (s.longest_path pk).2.1 = some r) :
    s.IsPath r ∧ (s.longest_path pk).2.2 = some (s.path_weight r) := by
  have hInv := (run_inv pk hI hA).1
  have hr2 : ((s.longest_path_run pk).1).longest_route = some r := hr
  obtain ⟨wv, m, hw, hpath, hweq, _, _, _⟩ := hInv.best_some r hr2
  refine ⟨hpath, ?_⟩
  show ((s.longest_path_run pk).1).longest_route_weight = some (s.path_weight r)
  rw [hw, hweq]

/-- Witness for C2: on the `__main__` graph with the min-label popping
order the returned route is `[1, 2, 5]`. -/
theorem claim2_witness :
    exampleGraph.IsPath [1, 2, 5] ∧
      (exampleGraph.longest_path min_picker).2.2 =
        some (exampleGraph.path_weight [1, 2, 5]) :=
  claim2_route_is_valid_path min_picker exampleGraph (build_initOK _ (by decide))
    (acyclic_topo _ id (by decide)) [1, 2, 5] (by decide)

/-- C3 as stated is false on the code.  On the one-node graph `{0: 5}`,
after `longest_path()` the node store still holds the label (the graph
store is not left empty), and a second call returns the cached
`([0], 5)` — the same pair as the first call — rather than
`(None, None)`: `longest_path` never clears `self.nodes`,
`self.longest_in_weight`/`route`, or the best registers, and with the
frontier already empty the second call returns the stored best
unchanged. -/
theorem claim3_counterexample :
    ((buildGraph [GraphOp.node 0 5]).longest_path min_picker).1.keys ≠ ∅ ∧
      (((buildGraph [GraphOp.node 0 5]).longest_path min_picker).1.longest_path
          min_picker).2 ≠ (none, none) ∧
      (((buildGraph [GraphOp.node 0 5]).longest_path min_picker).1.longest_path
          min_picker).2 = (some [0], some 5) := by
  refine ⟨by decide, by decide, by decide⟩

/-- C3 amended: after `longest_path()` on an acyclic graph in the initial
configuration the frontier set is empty and every forward and reverse
adjacency set is empty (the edge structure is consumed), but the node
store keeps all labels and weights; a second call returns the same
(route, weight) pair as the first call — which is `(None, None)` only
when the graph was empty — not unconditionally `(None, None)`. -/
theorem claim3_amended (pk : Picker) (s : DAGLongestPath) (hI : InitOK s)
    (hA : s.Acyclic) :
    ((s.longest_path pk).1).unseen_sources = ∅ ∧
      (∀ n, ((s.longest_path pk).1).edges n = ∅) ∧
      (∀ n, ((s.longest_path pk).1).rev_edges n = ∅) ∧
      ((s.longest_path pk).1).keys = s.keys ∧
      ((s.longest_path pk).1).nodes = s.nodes ∧
      (((s.longest_path pk).1).longest_path pk).2 = (s.longest_path pk).2 := by
  have hInv := (run_inv pk hI hA).1
  have hue : ((s.longest_path_run pk).1).unseen_sources = ∅ := run_unseen_empty pk s
  refine ⟨hue, ?_, ?_, hInv.keys_eq, hInv.nodes_eq, ?_⟩
  · intro n
    show ((s.longest_path_run pk).1).edges n = ∅
    by_cases hn : n ∈ s.keys
    · exact hInv.edges_done n hn
    · rw [hInv.edges_rest n hn]
      exact s.edges_dom n hn
  · intro n
    show ((s.longest_path_run pk).1).rev_edges n = ∅
    rw [hInv.rev_eq n]
    exact Finset.sdiff_eq_empty_iff_subset.mpr (hI.rev_sub n)
  · have h2 := longest_path_second_call pk (t := (s.longest_path pk).1) hue
    rw [h2]
    exact rfl

/-- Witness for the amended C3 at the `__main__` graph. -/
theorem claim3_witness :
    ((exampleGraph.longest_path min_picker).1).unseen_sources = ∅ ∧
      ((exampleGraph.longest_path min_picker).1).edges 2 = ∅ ∧
      ((exampleGraph.longest_path min_picker).1).rev_edges 5 = ∅ ∧
      ((exampleGraph.longest_path min_picker).1).keys = exampleGraph.keys ∧
      (((exampleGraph.longest_path min_picker).1).longest_path min_picker).2 =
        (exampleGraph.longest_path min_picker).2 := by
  have h := claim3_amended min_picker exampleGraph (build_initOK _ (by decide))
    (acyclic_topo _ id (by decide))
  exact ⟨h.1, h.2.1 2, h.2.2.1 5, h.2.2.2.1, h.2.2.2.2.2⟩

/-- C4 as stated is false on the code.  Build nodes 1, 2 and the edge
1→2, then re-add node 2 (a successful `add_node` call): `add_node` resets
`rev_edges[2]` to the empty set but leaves `2` in `edges[1]`, so the two
adjacency views no longer represent the same edge set. -/
theorem claim4_counterexample :
    ((buildGraph [GraphOp.node 1 0, GraphOp.node 2 0, GraphOp.edge 1 2]).add_node 2 0).2
        = none ∧
      ¬ Sync ((buildGraph [GraphOp.node 1 0, GraphOp.node 2 0,
        GraphOp.edge 1 2]).add_node 2 0).1 := by
  refine ⟨by decide, ?_⟩
  intro h
  exact absurd ((h 1 2).mp (by decide)) (by decide)

/-- C4 amended: every successful `add_edge` call preserves the
synchronization of the two adjacency views, and so does every `add_node`
call whose label has no incident edges (in particular every fresh label);
but re-adding a label that has incident edges breaks it (see the
counterexample). -/
theorem claim4_amended :
    (∀ (s : DAGLongestPath) (a b : ℕ), s.Sync → (s.add_edge a b).2 = none →
      Sync (s.add_edge a b).1) ∧
    (∀ (s : DAGLongestPath) (l : ℕ) (w : ℤ), s.Sync → s.edges l = ∅ →
      (∀ x, l ∉ s.edges x) → Sync (s.add_node l w).1) :=
  ⟨fun _ a b hs _ => add_edge_sync hs a b,
   fun _ l w hs hout hin => add_node_sync hs l w hout hin⟩

/-- Witness for the amended C4: a successful edge insertion and a
no-incident-edge node insertion, both preserving synchronization. -/
theorem claim4_witness :
    Sync ((buildGraph [GraphOp.node 1 0, GraphOp.node 2 0]).add_edge 1 2).1 ∧
      Sync ((buildGraph [GraphOp.node 1 0]).add_node 2 0).1 :=
  ⟨claim4_amended.1 _ 1 2 (build_initOK _ (by decide)).sync (by decide),
   claim4_amended.2 _ 2 0 (build_initOK _ (by decide)).sync (by decide)
     (fun x hx => absurd ((buildGraph [GraphOp.node 1 0]).edges_sub x hx) (by decide))⟩

/-- C5: for every state and label, `add_node` with a strictly negative
weight raises the invalid-weight `ValueError` and leaves the entire state
(node store, both adjacency views, frontier, best-path table, best
registers) exactly as before the call.  The raise is the first statement
of `add_node`, before any mutation. -/
theorem claim5_negative_weight_rejected (s : DAGLongestPath) (label : ℕ) (weight : ℤ)
    (h : weight < 0) :
    s.add_node label weight = (s, some GraphError.invalidWeight) := by
  unfold add_node
  rw [if_pos h]

/-- Witness for C5 on the empty graph with weight `-1`. -/
theorem claim5_witness :
    DAGLongestPath.empty.add_node 0 (-1) =
      (DAGLongestPath.empty, some GraphError.invalidWeight) :=
  claim5_negative_weight_rejected DAGLongestPath.empty 0 (-1) (by decide)

/-- C6: `add_edge` with an unregistered endpoint raises an error naming
the missing endpoint and its label (the source check runs first), leaving
the entire state unchanged; when both endpoints are registered the call
succeeds. -/
theorem claim6_unknown_endpoint (s : DAGLongestPath) (source target : ℕ) :
    (source ∉ s.keys →
      s.add_edge source target = (s, some (GraphError.unknownSource source))) ∧
    (source ∈ s.keys → target ∉ s.keys →
      s.add_edge source target = (s, some (GraphError.unknownTarget target))) ∧
    (source ∈ s.keys → target ∈ s.keys → (s.add_edge source target).2 = none) := by
  refine ⟨?_, ?_, ?_⟩
  · intro h
    unfold add_edge
    rw [dif_pos h]
  · intro hs ht
    unfold add_edge
    rw [dif_neg (not_not_intro hs), dif_pos ht]
  · intro hs ht
    unfold add_edge
    rw [dif_neg (not_not_intro hs), dif_neg (not_not_intro ht)]

/-- Witness for C6: unknown source, unknown target, and a successful call
on the one-node graph `{1: 0}`. -/
theorem claim6_witness :
    ((buildGraph [GraphOp.node 1 0]).add_edge 2 1 =
      (buildGraph [GraphOp.node 1 0], some (GraphError.unknownSource 2))) ∧
    ((buildGraph [GraphOp.node 1 0]).add_edge 1 3 =
      (buildGraph [GraphOp.node 1 0], some (GraphError.unknownTarget 3))) ∧
    ((buildGraph [GraphOp.node 1 0]).add_edge 1 1).2 = none :=
  ⟨(claim6_unknown_endpoint _ 2 1).1 (by decide),
   (claim6_unknown_endpoint _ 1 3).2.1 (by decide) (by decide),
   (claim6_unknown_endpoint _ 1 1).2.2 (by decide) (by decide)⟩

/-- C7: when a node with no outgoing edges is finalized, the global best
is replaced by the finalized (route, weight) iff no best exists yet or
the finalized weight is strictly greater; in particular, a finalized
weight equal to the current best never replaces it (first-seen optimal
terminal wins). -/
theorem claim7_tie_break (s : DAGLongestPath) (v : ℕ) (hterm : s.edges v = ∅) :
    ((s.longest_route = none ∨
        (∃ w0, s.longest_route_weight = some w0 ∧ w0 < s.new_weight v)) →
      ((s.step_node v).longest_route = some (s.new_route v) ∧
        (s.step_node v).longest_route_weight = some (s.new_weight v))) ∧
    (∀ r0 w0, s.longest_route = some r0 → s.longest_route_weight = some w0 →
      s.new_weight v ≤ w0 →
      ((s.step_node v).longest_route = some r0 ∧
        (s.step_node v).longest_route_weight = some w0)) := by
  rw [step_node_terminal hterm]
  constructor
  · intro h
    have hcond : (s.pop_node v).longest_route = none ∨
        ((s.pop_node v).longest_route_weight).getD 0 < s.new_weight v := by
      rw [pop_node_route, pop_node_weight]
      rcases h with h | ⟨w0, hw0, hlt⟩
      · exact Or.inl h
      · right
        rw [hw0]
        simpa using hlt
    exact ⟨(update_best_pos hcond).1, (update_best_pos hcond).2⟩
  · intro r0 w0 hr0 hw0 hge
    have hcond : ¬ ((s.pop_node v).longest_route = none ∨
        ((s.pop_node v).longest_route_weight).getD 0 < s.new_weight v) := by
      rw [pop_node_route, pop_node_weight]
      push_neg
      constructor
      · rw [hr0]; simp
      · rw [hw0]
        simpa using hge
    refine ⟨?_, ?_⟩
    · rw [(update_best_neg hcond).1, pop_node_route, hr0]
    · rw [(update_best_neg hcond).2, pop_node_weight, hw0]

/-- Witness for C7: finalizing the isolated node `{0: 3}` installs it as
the global best (no best existed yet). -/
theorem claim7_witness :
    ((buildGraph [GraphOp.node 0 3]).step_node 0).longest_route =
        some ((buildGraph [GraphOp.node 0 3]).new_route 0) ∧
      ((buildGraph [GraphOp.node 0 3]).step_node 0).longest_route_weight =
        some ((buildGraph [GraphOp.node 0 3]).new_weight 0) :=
  (claim7_tie_break _ 0 (by decide)).1 (Or.inl (by decide))

/-- C8: on every acyclic graph in the initial configuration the traversal
loop terminates — with fuel `measure_phi s` the frontier is provably
exhausted, and any larger fuel computes the same result, so the model
agrees with the unbounded Python `while` loop — and the trace of popped
nodes lists every node of the graph exactly once. -/
theorem claim8_terminates_each_node_once (pk : Picker) (s : DAGLongestPath)
    (hI : InitOK s) (hA : s.Acyclic) :
    (∀ k, measure_phi s ≤ k → loop_go pk k s = s.longest_path_run pk) ∧
    ((s.longest_path_run pk).1).unseen_sources = ∅ ∧
    ((s.longest_path_run pk).2).Nodup ∧
    ((s.longest_path_run pk).2).toFinset = s.keys := by
  obtain ⟨_, hnd, htf⟩ := run_inv pk hI hA
  exact ⟨fun k hk => loop_go_stable pk (measure_phi s) s (le_refl _) k hk,
    run_unseen_empty pk s, hnd, htf⟩

/-- Witness for C8 at the `__main__` graph (its measure is 7 ≤ 10). -/
theorem claim8_witness :
    loop_go min_picker 10 exampleGraph = exampleGraph.longest_path_run min_picker ∧
      ((exampleGraph.longest_path_run min_picker).1).unseen_sources = ∅ ∧
      ((exampleGraph.longest_path_run min_picker).2).Nodup ∧
      ((exampleGraph.longest_path_run min_picker).2).toFinset = exampleGraph.keys := by
  have h := claim8_terminates_each_node_once min_picker exampleGraph
    (build_initOK _ (by decide)) (acyclic_topo _ id (by decide))
  exact ⟨h.1 10 (by decide), h.2.1, h.2.2.1, h.2.2.2⟩

/-- C9: the `total_weight` returned by `longest_path()` is the same for
any two popping orders; only the returned route may differ among
equal-weight optima. -/
theorem claim9_weight_order_independent (pk1 pk2 : Picker) (s : DAGLongestPath)
    (hI : InitOK s) (hA : s.Acyclic) :
    (s.longest_path pk1).2.2 = (s.longest_path pk2).2.2 := by
  by_cases hne : s.keys.Nonempty
  · obtain ⟨r1, w1, _, hw1, hp1, hweq1, hopt1⟩ := run_best_optimal pk1 hI hA hne
    obtain ⟨r2, w2, _, hw2, hp2, hweq2, hopt2⟩ := run_best_optimal pk2 hI hA hne
    have h12 : w1 ≤ w2 := by
      have := hopt2 r1 hp1
      omega
    have h21 : w2 ≤ w1 := by
      have := hopt1 r2 hp2
      omega
    rw [hw1, hw2, le_antisymm h12 h21]
  · rw [Finset.not_nonempty_iff_eq_empty] at hne
    rw [run_keys_empty pk1 hI hne, run_keys_empty pk2 hI hne]

/-- Witness for C9: min-label and max-label popping orders return
different routes on the `__main__` graph but the same weight. -/
theorem claim9_witness :
    (exampleGraph.longest_path min_picker).2.2 =
      (exampleGraph.longest_path max_picker).2.2 :=
  claim9_weight_order_independent min_picker max_picker exampleGraph
    (build_initOK _ (by decide)) (acyclic_topo _ id (by decide))

/-- C10: `longest_path()` never removes a node from the node store nor
changes any weight: for every state whatsoever (no acyclicity needed),
after the call the key set and the whole label-to-weight mapping are
unchanged — only edges, frontier membership and the best-path table are
consumed. -/
theorem claim10_node_store_preserved (pk : Picker) (s : DAGLongestPath) :
    ((s.longest_path pk).1).keys = s.keys ∧ ((s.longest_path pk).1).nodes = s.nodes :=
  loop_go_keys_nodes pk (measure_phi s) s
